import Mathlib

/-! # Verification of the `gdd` event aggregator and executor

Shallow embedding of the core of the `gdd` repository:

* `parser.Parse` (src/tui/main_model.go, parser package): a stateful fold over
  the `go test -json` event stream producing a list of `PackageResult`s;
* `runner.ExecuteTestsCmd` configuration validation (runner package);
* `tui.updateOnTestsComplete` (tui package): reconciliation of the subprocess
  exit outcome with the accumulated structured output.

Modelling conventions:
* Go strings are Lean `String`s; byte-level operations (prefix, substring,
  trimming) are modelled on characters.  `strings.TrimSpace` trims Unicode
  whitespace in Go; here it trims the ASCII whitespace characters, which is
  what actually occurs in `go test` output.
* `float64` `Elapsed` values are modelled as rationals; the Go conversion
  `time.Duration(e * float64(time.Second))` truncates toward zero to an
  integer number of nanoseconds, modelled by `durOfElapsed`.
* Go maps are modelled as insertion-ordered association lists.  Go's map
  iteration order is unspecified; the two places `Parse` ranges over the
  in-flight map are modelled with insertion-order iteration.
* The input to `Parse` is modelled after `bufio.Scanner` + `json.Unmarshal`:
  a list of lines, each either empty, undecodable, or a decoded `TestEvent`.
* `sort.Slice` (comparing test names with `<`) is modelled with insertion
  sort on name order; the claims under study only depend on sortedness and
  determinism of the result, which hold for both.
-/

namespace Gdd

/-! ## Association lists (insertion-ordered model of Go maps) -/

/-- First value bound to `k`, mirroring Go map lookup `m[k]`. -/
def lookupA {α : Type} : List (String × α) → String → Option α
  | [], _ => none
  | (k', v) :: rest, k => if k' = k then some v else lookupA rest k

/-- Go map assignment `m[k] = v`: replace in place if present, else append.
The position of an existing binding is preserved so that insertion order of
keys is stable. -/
def insertA {α : Type} : List (String × α) → String → α → List (String × α)
  | [], k, v => [(k, v)]
  | (k', v') :: rest, k, v =>
    if k' = k then (k, v) :: rest else (k', v') :: insertA rest k v

/-- Go `delete(m, k)`: remove the binding for `k` (at most one exists). -/
def eraseA {α : Type} : List (String × α) → String → List (String × α)
  | [], _ => []
  | (k', v') :: rest, k =>
    if k' = k then rest else (k', v') :: eraseA rest k

/-! ## String helpers mirroring the Go `strings` package

Implemented structurally on the character list of the string (Go works on
bytes; for UTF-8 text character-wise prefix/containment agrees with
byte-wise, and all markers involved are ASCII anyway). -/

/-- `pfx` is a prefix of `s` (on character lists). -/
def isPrefixOfL : List Char → List Char → Bool
  | [], _ => true
  | _ :: _, [] => false
  | a :: as, b :: bs => a = b && isPrefixOfL as bs

/-- `sub` occurs as a contiguous run somewhere in `hay`. -/
def containsL (sub : List Char) : List Char → Bool
  | [] => isPrefixOfL sub []
  | c :: t => isPrefixOfL sub (c :: t) || containsL sub t

/-- `strings.HasPrefix`. -/
def hasPrefixS (s pfx : String) : Bool := isPrefixOfL pfx.data s.data

/-- `strings.Contains`. -/
def containsS (s sub : String) : Bool := containsL sub.data s.data

/-- `strings.TrimRight(s, "\n")`: strip trailing newline characters. -/
def trimNewlines (s : String) : String :=
  ⟨(s.data.reverse.dropWhile (· = '\n')).reverse⟩

/-- `strings.TrimSpace`: strip leading and trailing whitespace. -/
def trimSpaceS (s : String) : String :=
  ⟨((s.data.dropWhile Char.isWhitespace).reverse.dropWhile Char.isWhitespace).reverse⟩

/-- `strings.TrimPrefix`: drop `pfx` from the front of `s` when present. -/
def trimPrefixS (s pfx : String) : String :=
  if hasPrefixS s pfx then ⟨s.data.drop pfx.data.length⟩ else s

/-! ## Data model (parser package) -/

/-- `parser.TestStatus`.  In Go this is a string type; only these five
constants are ever assigned. -/
inductive TestStatus where
  | running
  | pass
  | fail
  | skip
  | unknown
deriving DecidableEq, Repr

/-- `parser.TestEvent`, the decoded form of one `go test -json` line.
The `Time` field is never read by `Parse` and is omitted.  `Elapsed` is a
`float64` number of seconds, modelled as a rational. -/
structure TestEvent where
  action : String
  package : String
  test : String
  elapsed : ℚ
  output : String
deriving DecidableEq, Repr

/-- One input line as seen by `Parse`'s scanner loop: empty (skipped, but
still counted in `lineNumber`), undecodable by `json.Unmarshal`, or a decoded
event. -/
inductive Line where
  | empty
  | malformed (text : String)
  | event (e : TestEvent)
deriving DecidableEq, Repr

/-- `parser.TestResult`.  `duration` is `time.Duration`, i.e. a signed
number of nanoseconds. -/
structure TestResult where
  packageName : String
  name : String
  status : TestStatus
  output : List String
  duration : Int
deriving DecidableEq, Repr

/-- `parser.PackageResult`. -/
structure PackageResult where
  packageName : String
  status : TestStatus
  summaryOutput : List String
  tests : List TestResult
  duration : Int
deriving DecidableEq, Repr

/-- `time.Duration(event.Elapsed * float64(time.Second))`: seconds to
nanoseconds, truncating toward zero as Go's float-to-int conversion does
(`tdiv` truncates toward zero and the denominator is positive). -/
def durOfElapsed (e : ℚ) : Int :=
  (e.num * 1000000000).tdiv (e.den : Int)

/-- The internal state of `Parse`'s scanner loop. -/
structure ParseState where
  /-- `packageResults` map (key: package name). -/
  packageResults : List (String × PackageResult)
  /-- `orderedPackageNames`: packages in the order first registered. -/
  orderedPackageNames : List String
  /-- `currentTestResults` map of in-flight tests (key: "pkg/test"). -/
  currentTestResults : List (String × TestResult)
  /-- `lineNumber`, incremented for every scanned line. -/
  lineNumber : Nat
deriving DecidableEq, Repr

def initState : ParseState := ⟨[], [], [], 0⟩

/-- The synthetic package used for top-level output with no package. -/
def orphanedOutputPackage : String := "_orphaned_output_"

/-- A fresh `PackageResult` as created when a package is first seen. -/
def freshPkg (name : String) : PackageResult :=
  ⟨name, .unknown, [], [], 0⟩

/-- `containsString(orderedPackageNames, name)` guard before appending. -/
def addIfAbsent (names : List String) (n : String) : List String :=
  if n ∈ names then names else names ++ [n]

/-- The "ensure package exists" preamble of the event loop
(src/tui/main_model.go:450-471).  Returns `none` when the event is skipped
(empty package name and not catchable as orphaned output); otherwise the
updated state and the (possibly reassigned) package name. -/
def ensurePackage (st : ParseState) (ev : TestEvent) :
    Option (ParseState × String) :=
  match lookupA st.packageResults ev.package with
  | some _ => some (st, ev.package)
  | none =>
    if ev.package = "" ∧ ev.test = "" ∧ ev.action = "output" then
      some ({ st with
                packageResults :=
                  insertA st.packageResults orphanedOutputPackage
                    (freshPkg orphanedOutputPackage)
                orderedPackageNames :=
                  addIfAbsent st.orderedPackageNames orphanedOutputPackage },
            orphanedOutputPackage)
    else if ev.package = "" then
      none
    else
      some ({ st with
                packageResults :=
                  insertA st.packageResults ev.package (freshPkg ev.package)
                orderedPackageNames :=
                  addIfAbsent st.orderedPackageNames ev.package },
            ev.package)

/-- `TestStatus(strings.ToUpper(event.Action))` for terminal actions. -/
def statusOfAction (a : String) : TestStatus :=
  if a = "pass" then .pass else if a = "fail" then .fail else .skip

/-- The output-appending loop over already-completed tests
(src/tui/main_model.go:503-509): append to the first test with a matching
name (the loop `break`s after the first hit). -/
def appendToFirstMatch : List TestResult → String → String → List TestResult
  | [], _, _ => []
  | t :: ts, name, line =>
    if t.name = name then { t with output := t.output ++ [line] } :: ts
    else t :: appendToFirstMatch ts name line

/-- Diagnostic line appended when a package finalizes with tests still
in flight (src/tui/main_model.go:561). -/
def pkgSweepDiag : String :=
  "Test did not report completion before package finished."

/-- Diagnostic line appended by the end-of-stream sweep
(src/tui/main_model.go:624). -/
def eofSweepDiag : String :=
  "Test did not complete (process might have crashed, timed out, or was terminated)."

/-- The sweep over `currentTestResults` when a package finalizes
(src/tui/main_model.go:557-569): each still-running test of this package is
marked `FAIL`, given a diagnostic line, moved into the package's tests, and
removed from the in-flight map; a `PASS` package is flipped to `FAIL`.
Go ranges over the map in unspecified (randomized) order; insertion order
is used here.  This determinizes the model: properties that depend on which
range order Go picks (such as cross-run determinism of equal-named-test tie
order) are outside what this embedding can establish or refute. -/
def markPkgSweep (t : TestResult) : TestResult :=
  { t with status := .fail, output := t.output ++ [pkgSweepDiag] }

def sweepPackage (pkgName : String) :
    List (String × TestResult) → PackageResult →
    List (String × TestResult) × PackageResult
  | [], pkg => ([], pkg)
  | (k, ut) :: rest, pkg =>
    if ut.packageName = pkgName then
      let pkg' : PackageResult :=
        { pkg with
            tests := pkg.tests ++ [markPkgSweep ut]
            status := if pkg.status = .pass then .fail else pkg.status }
      sweepPackage pkgName rest pkg'
    else
      let (rest', pkg') := sweepPackage pkgName rest pkg
      ((k, ut) :: rest', pkg')

/-- One line matches the "[no test files]" heuristic
(src/tui/main_model.go:576). -/
def noTestFilesMarker (l : String) : Bool :=
  containsS l "[no test files]" || containsS l "no Go files" ||
    containsS l "no non-test Go files"

/-- One line matches the build-failure heuristic
(src/tui/main_model.go:580).  Go operator precedence:
`a || b && c` is `a || (b && c)`. -/
def buildFailedMarker (l : String) : Bool :=
  hasPrefixS l "# " || (containsS l "FAIL\t" && containsS l "[build failed]")

/-- The classification loop over the package summary
(src/tui/main_model.go:575-583): returns `(isNoTestFiles, isBuildFailed)`.
The loop `break`s as soon as a no-test-files marker is found, so later
lines do not contribute to `isBuildFailed`. -/
def classifySummary (acc : Bool) : List String → Bool × Bool
  | [] => (false, acc)
  | l :: rest =>
    if noTestFilesMarker l then (true, acc)
    else classifySummary (acc || buildFailedMarker l) rest

/-- Finalization of a test by its own terminal event
(src/tui/main_model.go:523-550).  When no in-flight record exists, a
synthetic one is created and tagged summary lines are moved into it. -/
def finishTest (st : ParseState) (ev : TestEvent) (pkg : PackageResult)
    (status : TestStatus) (duration : Int) : ParseState :=
  let testKey := ev.package ++ "/" ++ ev.test
  let (tr, pkg1) :
      TestResult × PackageResult :=
    match lookupA st.currentTestResults testKey with
    | some tr => (tr, pkg)
    | none =>
      let tag := "[" ++ ev.test ++ "]"
      let moved := (pkg.summaryOutput.filter fun l => hasPrefixS l tag).map
        fun l => trimSpaceS (trimPrefixS l tag)
      let rest := pkg.summaryOutput.filter fun l => ¬ hasPrefixS l tag
      -- Go creates the record with zero-value status "" here; the status is
      -- overwritten unconditionally just below, so the placeholder is inert.
      (⟨ev.package, ev.test, .unknown, moved, 0⟩,
       { pkg with summaryOutput := rest })
  let tr' : TestResult := { tr with status := status, duration := duration }
  { st with
      packageResults :=
        insertA st.packageResults ev.package
          { pkg1 with tests := pkg1.tests ++ [tr'] }
      currentTestResults := eraseA st.currentTestResults testKey }

/-- Finalization of a package by its own terminal event
(src/tui/main_model.go:551-607): set status and duration, sweep in-flight
tests of this package, then apply the zero-test placeholder heuristics. -/
def finishPackage (st : ParseState) (ev : TestEvent) (pkg : PackageResult)
    (status : TestStatus) (duration : Int) : ParseState :=
  let pkg1 : PackageResult := { pkg with status := status, duration := duration }
  let (current2, pkg2) := sweepPackage ev.package st.currentTestResults pkg1
  let pkg3 : PackageResult :=
    if (status = .fail ∨ status = .skip ∨ status = .pass) ∧
        pkg2.tests = [] ∧ pkg2.summaryOutput ≠ [] then
      let c := classifySummary false pkg2.summaryOutput
      if c.1 then
        { pkg2 with
            tests := pkg2.tests ++
              [⟨ev.package, "Package " ++ ev.package ++ " Status", .skip,
                pkg2.summaryOutput, pkg2.duration⟩]
            summaryOutput := [] }
      else if c.2 ∧ status = .fail then
        { pkg2 with
            tests := pkg2.tests ++
              [⟨ev.package, "Package " ++ ev.package ++ " Build Failed", .fail,
                pkg2.summaryOutput, pkg2.duration⟩]
            summaryOutput := [] }
      else pkg2
    else pkg2
  { st with
      packageResults := insertA st.packageResults ev.package pkg3
      currentTestResults := current2 }

/-- The action switch of the event loop (src/tui/main_model.go:478-611),
operating on the ensured package entry. -/
def handleAction (st : ParseState) (ev : TestEvent) : ParseState :=
  match lookupA st.packageResults ev.package with
  | none => st  -- unreachable: `ensurePackage` has registered the package
  | some pkg =>
    let testKey := ev.package ++ "/" ++ ev.test
    if ev.action = "run" then
      if ev.test ≠ "" then
        { st with
            currentTestResults :=
              insertA st.currentTestResults testKey
                ⟨ev.package, ev.test, .running, [], 0⟩ }
      else
        { st with
            packageResults :=
              insertA st.packageResults ev.package
                { pkg with status := .running } }
    else if ev.action = "output" then
      let outputLine := trimNewlines ev.output
      if ev.test ≠ "" then
        match lookupA st.currentTestResults testKey with
        | some tr =>
          { st with
              currentTestResults :=
                insertA st.currentTestResults testKey
                  { tr with output := tr.output ++ [outputLine] } }
        | none =>
          if pkg.tests.any (·.name = ev.test) then
            { st with
                packageResults :=
                  insertA st.packageResults ev.package
                    { pkg with
                        tests := appendToFirstMatch pkg.tests ev.test outputLine } }
          else
            { st with
                packageResults :=
                  insertA st.packageResults ev.package
                    { pkg with
                        summaryOutput := pkg.summaryOutput ++
                          ["[" ++ ev.test ++ "] " ++ outputLine] } }
      else
        { st with
            packageResults :=
              insertA st.packageResults ev.package
                { pkg with summaryOutput := pkg.summaryOutput ++ [outputLine] } }
    else if ev.action = "pass" ∨ ev.action = "fail" ∨ ev.action = "skip" then
      let status := statusOfAction ev.action
      let duration := durOfElapsed ev.elapsed
      if ev.test ≠ "" then finishTest st ev pkg status duration
      else finishPackage st ev pkg status duration
    else
      st  -- unhandled actions ("cont", "pause", "bench", ...) are ignored

/-- Processing of one decoded event. -/
def processEvent (st : ParseState) (ev : TestEvent) : ParseState :=
  match ensurePackage st ev with
  | none => st
  | some (st1, pkgName) => handleAction st1 { ev with package := pkgName }

/-- The malformed-line tag (src/tui/main_model.go:443). -/
def malformedTag (n : Nat) (text : String) : String :=
  "[Malformed JSON line " ++ toString n ++ "]: " ++ text

/-- Processing of one scanned line (src/tui/main_model.go:429-447):
count the line, skip empty lines, attach undecodable lines to the most
recently seen package when one exists (otherwise they are only logged),
and dispatch decoded events. -/
def processLine (st : ParseState) (l : Line) : ParseState :=
  let st := { st with lineNumber := st.lineNumber + 1 }
  match l with
  | .empty => st
  | .malformed text =>
    match st.orderedPackageNames.getLast? with
    | none => st
    | some lastPkg =>
      match lookupA st.packageResults lastPkg with
      | none => st
      | some pkg =>
        { st with
            packageResults :=
              insertA st.packageResults lastPkg
                { pkg with
                    summaryOutput := pkg.summaryOutput ++
                      [malformedTag st.lineNumber text] } }
  | .event ev => processEvent st ev

/-- State after consuming the whole stream (before the end-of-stream sweep). -/
def runLines (ls : List Line) : ParseState :=
  ls.foldl processLine initState

/-- One step of the end-of-stream sweep (src/tui/main_model.go:620-638):
a still-running in-flight test is failed with a diagnostic line, appended to
its package, and the package is forced to `FAIL`. -/
def markEofSweep (t : TestResult) : TestResult :=
  { t with status := .fail, output := t.output ++ [eofSweepDiag] }

def finalizeStep (pkgs : List (String × PackageResult))
    (entry : String × TestResult) : List (String × PackageResult) :=
  let tr := entry.2
  if tr.status = .running then
    match lookupA pkgs tr.packageName with
    | some pkg =>
      insertA pkgs tr.packageName
        { pkg with
            tests := pkg.tests ++ [markEofSweep tr]
            status := if pkg.status ≠ .fail then .fail else pkg.status }
    | none => pkgs
  else pkgs

/-- The end-of-stream sweep over the in-flight map.  Go ranges over the map
in unspecified (randomized) order; insertion order is used here — the same
determinizing abstraction as in `sweepPackage`. -/
def finalizeState (st : ParseState) : ParseState :=
  { st with
      packageResults := st.currentTestResults.foldl finalizeStep st.packageResults }

/-- Name order on test results, as used by the final `sort.Slice`
(`Tests[i].Name < Tests[j].Name`).  Lexicographic order on the characters,
which agrees with Go's byte-wise string order on the ASCII strings involved
(and with Lean's `String` order, which is not kernel-evaluable). -/
def nameLe (a b : TestResult) : Prop := a.name.data ≤ b.name.data

instance : DecidableRel nameLe := fun a b =>
  inferInstanceAs (Decidable (a.name.data ≤ b.name.data))

instance : IsTotal TestResult nameLe :=
  ⟨fun a b => le_total a.name.data b.name.data⟩

instance : IsTrans TestResult nameLe :=
  ⟨fun _ _ _ hab hbc => le_trans hab hbc⟩

/-- The final per-package sort (src/tui/main_model.go:645-647).  Go's
`sort.Slice` is an unstable sort (stable in practice only below its
small-slice insertion-sort threshold); modelling it with a stable insertion
sort fixes the relative order of equal-named tests, which the program
leaves unspecified.  Claims that depend only on sortedness and membership
are unaffected; claims about the tie order itself are outside the model. -/
def sortTests (ts : List TestResult) : List TestResult :=
  ts.insertionSort nameLe

/-- Assembly of the final list (src/tui/main_model.go:641-650): packages in
first-registered order, each with its tests sorted by name. -/
def assemble (st : ParseState) : List PackageResult :=
  st.orderedPackageNames.filterMap fun n =>
    (lookupA st.packageResults n).map fun p => { p with tests := sortTests p.tests }

/-- `parser.Parse`.  The Go function can also return an error, but only when
the underlying scanner fails, which cannot happen for the in-memory byte
slices it is applied to; the model is total. -/
def Parse (ls : List Line) : List PackageResult :=
  assemble (finalizeState (runLines ls))

/-! ## Runner model (runner package, `ExecuteTestsCmd`) -/

/-- `runner.TestTargetType`. -/
inductive TestTargetType where
  | singleTest
  | packageTests
  | allTests
deriving DecidableEq, Repr

/-- `runner.TestRunConfig`. -/
structure TestRunConfig where
  type : TestTargetType
  packagePath : String
  testName : String
  workingDir : String
deriving DecidableEq, Repr

/-- Outcome of the argument-validation phase of `ExecuteTestsCmd`:
either a configuration error — the goroutine sends a single
`TestRunCompleteMsg{Err}` on the channel and returns before `exec.Command`
is ever built, so no subprocess is spawned and no `TestOutputLineMsg` is
produced — or a launch of `go` with the assembled argument list. -/
inductive CmdOutcome where
  | configError (err : String)
  | launch (args : List String)
deriving DecidableEq, Repr

/-- The argument-validation and argument-assembly logic of
`runner.ExecuteTestsCmd` (the part of the goroutine that runs before any
subprocess is started). -/
def executeTestsValidate (config : TestRunConfig) : CmdOutcome :=
  let baseArgs := ["test", "-json", "-v", "-count=1"]
  match config.type with
  | .singleTest =>
    if config.packagePath = "" ∨ config.testName = "" then
      .configError "ExecuteTestsCmd: SingleTest requires a valid PackagePath and TestName"
    else
      .launch (baseArgs ++ [config.packagePath, "-run", "^" ++ config.testName ++ "$"])
  | .packageTests =>
    if config.packagePath = "" then
      .configError "ExecuteTestsCmd: PackageTests requires a valid PackagePath"
    else
      .launch (baseArgs ++ [config.packagePath])
  | .allTests =>
    .launch (baseArgs ++ ["./..."])

/-- The messages produced on the runner channel for a run that fails
validation: exactly one completion message carrying the error, and in
particular no output-line message.  (For a validated config the channel
instead carries the subprocess's stdout lines followed by completion.) -/
inductive RunnerMsg where
  | outputLine (line : String)
  | complete (err : Option String)
deriving DecidableEq, Repr

/-- Channel contents for the validation-failure paths of `ExecuteTestsCmd`. -/
def configErrorMessages (err : String) : List RunnerMsg :=
  [.complete (some err)]

/-! ## `tui.updateOnTestsComplete` (src/unnamed/part_001) -/

/-- The synthetic result built when the subprocess reported an error and no
structured output was accumulated (src/unnamed/part_001:311-327). -/
def execErrorResult (err : String) : PackageResult :=
  { packageName := "Test Execution Error"
    status := .fail
    summaryOutput :=
      ["Execution failed to produce JSON output.",
       "Error from `go test`: " ++ err,
       "Check GDD log for `go test stderr` details."]
    tests :=
      [{ packageName := "Test Execution Error"
         name := "Overall Execution"
         status := .fail
         output := ["Command `go test` failed: " ++ err]
         duration := 0 }]
    duration := 0 }

/-- The result-selection logic of `updateOnTestsComplete`: if the run ended
with an error and zero bytes of structured output were accumulated, a single
synthetic failure result is used; otherwise the accumulated lines are parsed.
`accumulated` is the accumulated stream split into lines (`Len() == 0` in Go
corresponds exactly to the empty line list, since every received line appends
at least a newline byte).  The `parseErr` branch of the Go code is
unreachable here because the modelled `Parse` is total. -/
def updateOnTestsComplete (accumulated : List Line) (err : Option String) :
    List PackageResult :=
  if accumulated = [] ∧ err ≠ none then
    [execErrorResult (err.getD "")]
  else
    Parse accumulated

/-! ## Spec-side definitions (for refinement-style claims)

These follow the specification's words, to be compared against the model
translated from the source. -/

/-- Modelled from the spec: "the order in which each package identifier was
first seen in the stream".  An event "sees" a package when it carries a
non-empty package identifier, and an all-empty output event is seen under
the synthetic orphaned-output name; other package-less events and
undecodable lines see no package. -/
def specSeenName (e : TestEvent) : Option String :=
  if e.package = "" ∧ e.test = "" ∧ e.action = "output" then
    some orphanedOutputPackage
  else if e.package = "" then none
  else some e.package

/-- Modelled from the spec: one line's contribution to the first-seen
package order. -/
def specSeenStep (acc : List String) (l : Line) : List String :=
  match l with
  | .event e =>
    (match specSeenName e with
     | some n => addIfAbsent acc n
     | none => acc)
  | _ => acc

/-- Modelled from the spec: the package identifiers of a stream in first-seen
order. -/
def specFirstSeenPackages (ls : List Line) : List String :=
  ls.foldl specSeenStep []

/-! ## Invariants of the parse state -/

/-- A status is terminal: `pass`, `fail` or `skip`. -/
def terminalStatus (s : TestStatus) : Prop :=
  s = .pass ∨ s = .fail ∨ s = .skip

instance : DecidablePred terminalStatus := fun s => by
  unfold terminalStatus; infer_instance

/-- Structural invariant maintained by the scanner loop of `Parse`. -/
structure Inv (st : ParseState) : Prop where
  /-- Every registered package key appears in the ordered name list. -/
  keys_sub : ∀ n ∈ st.packageResults.map Prod.fst, n ∈ st.orderedPackageNames
  /-- Every ordered name has a registered package. -/
  ordered_sub : ∀ n ∈ st.orderedPackageNames, n ∈ st.packageResults.map Prod.fst
  /-- The empty package name is never registered. -/
  key_ne : ∀ e ∈ st.packageResults, e.1 ≠ ""
  /-- A registered package's name is its key. -/
  pkg_name : ∀ e ∈ st.packageResults, e.2.packageName = e.1
  /-- Every finalized test has a terminal status. -/
  pkg_terminal : ∀ e ∈ st.packageResults, ∀ t ∈ e.2.tests, terminalStatus t.status
  /-- In-flight keys are `pkg ++ "/" ++ name` of their record. -/
  cur_key : ∀ e ∈ st.currentTestResults, e.1 = e.2.packageName ++ "/" ++ e.2.name
  /-- In-flight records are `RUNNING`. -/
  cur_running : ∀ e ∈ st.currentTestResults, e.2.status = .running
  /-- In-flight records still have their zero duration. -/
  cur_dur : ∀ e ∈ st.currentTestResults, e.2.duration = 0
  /-- In-flight records belong to a registered package. -/
  cur_pkg : ∀ e ∈ st.currentTestResults, e.2.packageName ∈ st.packageResults.map Prod.fst
  /-- In-flight keys are unique. -/
  cur_nodup : (st.currentTestResults.map Prod.fst).Nodup

/-- Duration invariant on the package map: holds as long as every terminal
event consumed so far carried a non-negative `Elapsed`. -/
structure DurInv (pkgs : List (String × PackageResult)) : Prop where
  pkg_dur : ∀ e ∈ pkgs, 0 ≤ e.2.duration
  tests_dur : ∀ e ∈ pkgs, ∀ t ∈ e.2.tests, 0 ≤ t.duration

/-- The line carries a non-negative `Elapsed` value (vacuous for non-event
lines). -/
def elapsedNonneg : Line → Prop
  | .event e => 0 ≤ e.elapsed
  | _ => True

instance : DecidablePred elapsedNonneg := fun l =>
  match l with
  | .event e => inferInstanceAs (Decidable (0 ≤ e.elapsed))
  | .empty => inferInstanceAs (Decidable True)
  | .malformed _ => inferInstanceAs (Decidable True)

/-- The line is not an event explicitly naming the synthetic orphaned-output
package. -/
def notBucketEvent : Line → Prop
  | .event e => e.package ≠ orphanedOutputPackage
  | _ => True

instance : DecidablePred notBucketEvent := fun l =>
  match l with
  | .event e => inferInstanceAs (Decidable (e.package ≠ orphanedOutputPackage))
  | .empty => inferInstanceAs (Decidable True)
  | .malformed _ => inferInstanceAs (Decidable True)

/-- The line cannot affect the orphaned-output bucket: it decodes, it is not
an orphaned-output event itself, and it does not explicitly name the
bucket's package. -/
def cleanAfterOrphan : Line → Prop
  | .empty => True
  | .malformed _ => False
  | .event e => e.package ≠ orphanedOutputPackage ∧
      ¬(e.package = "" ∧ e.test = "" ∧ e.action = "output")

instance : DecidablePred cleanAfterOrphan := fun l =>
  match l with
  | .empty => inferInstanceAs (Decidable True)
  | .malformed _ => inferInstanceAs (Decidable False)
  | .event e => inferInstanceAs (Decidable (e.package ≠ orphanedOutputPackage ∧
      ¬(e.package = "" ∧ e.test = "" ∧ e.action = "output")))

/-- The orphaned-output bucket is registered with value `B`, appears among
the ordered names, and no in-flight test belongs to it. -/
def BucketIntact (st : ParseState) (B : PackageResult) : Prop :=
  lookupA st.packageResults orphanedOutputPackage = some B ∧
  orphanedOutputPackage ∈ st.orderedPackageNames ∧
  ∀ e ∈ st.currentTestResults, e.2.packageName ≠ orphanedOutputPackage

/-! ## Association-list lemmas -/

theorem lookupA_insertA {α : Type} (l : List (String × α)) (k : String) (v : α)
    (n : String) :
    lookupA (insertA l k v) n = if n = k then some v else lookupA l n := by
  induction l with
  | nil =>
    simp only [insertA, lookupA]
    by_cases h : n = k
    · simp [h]
    · simp [h, Ne.symm h]
  | cons e rest ih =>
    obtain ⟨k', v'⟩ := e
    simp only [insertA]
    by_cases hk : k' = k
    · subst hk
      by_cases hn : n = k'
      · simp [lookupA, hn]
      · simp [lookupA, hn, Ne.symm hn]
    · by_cases hn : k' = n
      · have hnk : ¬ n = k := fun h => hk (hn.trans h)
        simp [lookupA, hk, hn, hnk]
      · simp [lookupA, hk, hn, ih]

theorem mem_insertA {α : Type} {l : List (String × α)} {k : String} {v : α}
    {e : String × α} (h : e ∈ insertA l k v) : e = (k, v) ∨ e ∈ l := by
  induction l with
  | nil => simpa [insertA] using h
  | cons hd rest ih =>
    obtain ⟨k', v'⟩ := hd
    simp only [insertA] at h
    by_cases hk : k' = k
    · simp only [if_pos hk, List.mem_cons] at h
      rcases h with h | h
      · exact Or.inl h
      · exact Or.inr (List.mem_cons_of_mem _ h)
    · simp only [if_neg hk, List.mem_cons] at h
      rcases h with h | h
      · exact Or.inr (h ▸ List.mem_cons_self _ _)
      · rcases ih h with h | h
        · exact Or.inl h
        · exact Or.inr (List.mem_cons_of_mem _ h)

theorem keys_insertA {α : Type} (l : List (String × α)) (k : String) (v : α) :
    (insertA l k v).map Prod.fst =
      if k ∈ l.map Prod.fst then l.map Prod.fst else l.map Prod.fst ++ [k] := by
  induction l with
  | nil => simp [insertA]
  | cons e rest ih =>
    obtain ⟨k', v'⟩ := e
    simp only [insertA]
    by_cases hk : k' = k
    · subst hk
      simp
    · by_cases hm : k ∈ rest.map Prod.fst
      · simp [hk, Ne.symm hk, hm, ih]
      · simp [hk, Ne.symm hk, hm, ih]

theorem lookupA_isSome_iff {α : Type} (l : List (String × α)) (n : String) :
    (lookupA l n).isSome ↔ n ∈ l.map Prod.fst := by
  induction l with
  | nil => simp [lookupA]
  | cons e rest ih =>
    obtain ⟨k', v'⟩ := e
    by_cases h : k' = n
    · simp [lookupA, h]
    · simp [lookupA, h, Ne.symm h, ih]

theorem lookupA_mem {α : Type} {l : List (String × α)} {n : String} {v : α}
    (h : lookupA l n = some v) : (n, v) ∈ l := by
  induction l with
  | nil => simp [lookupA] at h
  | cons e rest ih =>
    obtain ⟨k', v'⟩ := e
    by_cases hk : k' = n
    · subst hk
      have hv : v' = v := by simpa [lookupA] using h
      subst hv
      exact List.mem_cons_self _ _
    · simp only [lookupA, if_neg hk] at h
      exact List.mem_cons_of_mem _ (ih h)

theorem eraseA_sublist {α : Type} (l : List (String × α)) (k : String) :
    List.Sublist (eraseA l k) l := by
  induction l with
  | nil => simp [eraseA]
  | cons e rest ih =>
    obtain ⟨k', v'⟩ := e
    by_cases h : k' = k
    · simp only [eraseA, if_pos h]
      exact List.sublist_cons_self _ _
    · simp only [eraseA, if_neg h]
      exact ih.cons₂ (k', v')

theorem mem_eraseA {α : Type} {l : List (String × α)} {k : String}
    {e : String × α} (h : e ∈ eraseA l k) : e ∈ l :=
  (eraseA_sublist l k).mem h

theorem nodup_keys_insertA {α : Type} {l : List (String × α)} (k : String) (v : α)
    (h : (l.map Prod.fst).Nodup) : ((insertA l k v).map Prod.fst).Nodup := by
  rw [keys_insertA]
  by_cases hm : k ∈ l.map Prod.fst
  · simpa [hm] using h
  · simp [hm, List.nodup_append, h, List.disjoint_singleton]

/-! ## Characterizations of the two sweeps -/

theorem sweepPackage_eq (P : String) (cur : List (String × TestResult)) :
    ∀ pkg : PackageResult,
    sweepPackage P cur pkg =
      (cur.filter (fun e => ¬ e.2.packageName = P),
       { pkg with
           tests := pkg.tests ++
             (cur.filter (fun e => e.2.packageName = P)).map (fun e => markPkgSweep e.2)
           status :=
             if pkg.status = .pass ∧ cur.any (fun e => e.2.packageName = P) then .fail
             else pkg.status }) := by
  induction cur with
  | nil => intro pkg; simp [sweepPackage]
  | cons e rest ih =>
    intro pkg
    obtain ⟨k, ut⟩ := e
    by_cases h : ut.packageName = P
    · simp only [sweepPackage, if_pos h]
      rw [ih]
      by_cases hp : pkg.status = .pass
      · simp [h, hp, List.filter_cons, List.append_assoc]
      · simp [h, hp, List.filter_cons, List.append_assoc]
    · simp only [sweepPackage, if_neg h]
      rw [ih]
      have hany : (((k, ut) :: rest).any fun e => decide (e.2.packageName = P)) =
          (rest.any fun e => decide (e.2.packageName = P)) := by simp [h]
      have hfilt : List.filter (fun e => decide (e.2.packageName = P)) ((k, ut) :: rest) =
          List.filter (fun e => decide (e.2.packageName = P)) rest := by simp [h]
      have hfilt2 : List.filter (fun e => decide (¬ e.2.packageName = P)) ((k, ut) :: rest) =
          (k, ut) :: List.filter (fun e => decide (¬ e.2.packageName = P)) rest := by simp [h]
      simp only [hany, hfilt, hfilt2]

/-- After a step of the end-of-stream sweep the status write
`if status != FAIL then status = FAIL` always results in `FAIL`. -/
theorem forcedFail (s : TestStatus) :
    (if s ≠ TestStatus.fail then TestStatus.fail else s) = .fail := by
  by_cases h : s = .fail <;> simp [h]

theorem lookupA_foldl_finalizeStep (entries : List (String × TestResult)) :
    ∀ (pkgs : List (String × PackageResult)) (P : String),
    (∀ e ∈ entries, e.2.status = .running) →
    lookupA (entries.foldl finalizeStep pkgs) P =
      (lookupA pkgs P).map (fun p =>
        { p with
            tests := p.tests ++
              (entries.filter (fun e => e.2.packageName = P)).map
                (fun e => markEofSweep e.2)
            status :=
              if entries.any (fun e => e.2.packageName = P) then .fail
              else p.status }) := by
  induction entries with
  | nil =>
    intro pkgs P _
    cases hp : lookupA pkgs P <;> simp [hp]
  | cons e rest ih =>
    intro pkgs P hrun
    have hr : e.2.status = .running := hrun _ (List.mem_cons_self _ _)
    have hrest : ∀ x ∈ rest, x.2.status = .running :=
      fun x hx => hrun _ (List.mem_cons_of_mem _ hx)
    simp only [List.foldl_cons]
    rw [ih _ _ hrest]
    show (lookupA (finalizeStep pkgs e) P).map _ = _
    unfold finalizeStep
    rw [if_pos hr]
    cases hp : lookupA pkgs e.2.packageName with
    | none =>
      by_cases hP : P = e.2.packageName
      · subst hP
        simp [hp]
      · have hne : ¬ e.2.packageName = P := fun hh => hP hh.symm
        have hany : ((e :: rest).any fun x => decide (x.2.packageName = P)) =
            (rest.any fun x => decide (x.2.packageName = P)) := by simp [hne]
        have hfilt : List.filter (fun x => decide (x.2.packageName = P)) (e :: rest) =
            List.filter (fun x => decide (x.2.packageName = P)) rest := by simp [hne]
        simp only [hany, hfilt]
    | some pkg =>
      rw [lookupA_insertA]
      by_cases hP : P = e.2.packageName
      · subst hP
        have hany : ((e :: rest).any fun x => decide (x.2.packageName = e.2.packageName)) =
            true := by simp
        have hfiltc :
            List.filter (fun x => decide (x.2.packageName = e.2.packageName)) (e :: rest) =
              e :: List.filter (fun x => decide (x.2.packageName = e.2.packageName)) rest := by
          simp
        simp only [if_pos rfl, hp, hany, hfiltc]
        simp [forcedFail, List.append_assoc]
      · have hne : ¬ e.2.packageName = P := fun hh => hP hh.symm
        have hany : ((e :: rest).any fun x => decide (x.2.packageName = P)) =
            (rest.any fun x => decide (x.2.packageName = P)) := by simp [hne]
        have hfilt : List.filter (fun x => decide (x.2.packageName = P)) (e :: rest) =
            List.filter (fun x => decide (x.2.packageName = P)) rest := by simp [hne]
        simp only [if_neg hP, hany, hfilt]

/-- The end-of-stream sweep never changes the key set of the package map. -/
theorem keys_foldl_finalizeStep (entries : List (String × TestResult)) :
    ∀ pkgs : List (String × PackageResult),
    (entries.foldl finalizeStep pkgs).map Prod.fst = pkgs.map Prod.fst := by
  induction entries with
  | nil => intro pkgs; rfl
  | cons e rest ih =>
    intro pkgs
    simp only [List.foldl_cons]
    rw [ih]
    unfold finalizeStep
    by_cases hr : e.2.status = .running
    · rw [if_pos hr]
      cases hp : lookupA pkgs e.2.packageName with
      | none => rfl
      | some pkg =>
        rw [keys_insertA]
        have : e.2.packageName ∈ pkgs.map Prod.fst :=
          (lookupA_isSome_iff _ _).mp (by simp [hp])
        simp [this]
    · rw [if_neg hr]

/-! ## Invariant preservation -/

theorem terminalStatus_statusOfAction (a : String) :
    terminalStatus (statusOfAction a) := by
  unfold statusOfAction terminalStatus
  by_cases h1 : a = "pass"
  · simp [h1]
  · by_cases h2 : a = "fail" <;> simp [h1, h2]

theorem mem_appendToFirstMatch {ts : List TestResult} {n l : String}
    {t' : TestResult} (h : t' ∈ appendToFirstMatch ts n l) :
    ∃ t ∈ ts, t'.status = t.status ∧ t'.duration = t.duration ∧
      t'.packageName = t.packageName := by
  induction ts with
  | nil => simp [appendToFirstMatch] at h
  | cons t ts ih =>
    simp only [appendToFirstMatch] at h
    by_cases hn : t.name = n
    · rw [if_pos hn] at h
      rcases List.mem_cons.mp h with h | h
      · exact ⟨t, List.mem_cons_self _ _, by simp [h]⟩
      · exact ⟨t', List.mem_cons_of_mem _ h, rfl, rfl, rfl⟩
    · rw [if_neg hn] at h
      rcases List.mem_cons.mp h with h | h
      · exact ⟨t, List.mem_cons_self _ _, by simp [h]⟩
      · obtain ⟨t₀, ht₀, hs⟩ := ih h
        exact ⟨t₀, List.mem_cons_of_mem _ ht₀, hs⟩

theorem inv_lineNumber {st : ParseState} (h : Inv st) (n : Nat) :
    Inv { st with lineNumber := n } := by
  obtain ⟨a, b, c, d, e, f, g, i, j, k⟩ := h
  exact ⟨a, b, c, d, e, f, g, i, j, k⟩

/-- Updating an existing package entry with one whose name is unchanged and
whose tests remain terminal preserves the invariant. -/
theorem inv_update_pkg {st : ParseState} (h : Inv st) {k : String}
    {pkg pkg' : PackageResult} (hl : lookupA st.packageResults k = some pkg)
    (hname : pkg'.packageName = pkg.packageName)
    (hterm : ∀ t ∈ pkg'.tests, terminalStatus t.status) :
    Inv { st with packageResults := insertA st.packageResults k pkg' } := by
  have hmem : (k, pkg) ∈ st.packageResults := lookupA_mem hl
  have hkeys : k ∈ st.packageResults.map Prod.fst :=
    (lookupA_isSome_iff _ _).mp (by simp [hl])
  have hkeq : (insertA st.packageResults k pkg').map Prod.fst =
      st.packageResults.map Prod.fst := by
    rw [keys_insertA, if_pos hkeys]
  refine ⟨?_, ?_, ?_, ?_, ?_, h.cur_key, h.cur_running, h.cur_dur, ?_, h.cur_nodup⟩
  · intro n hn
    rw [hkeq] at hn
    exact h.keys_sub n hn
  · intro n hn
    rw [hkeq]
    exact h.ordered_sub n hn
  · intro e he
    rcases mem_insertA he with he | he
    · subst he
      exact h.key_ne (k, pkg) hmem
    · exact h.key_ne _ he
  · intro e he
    rcases mem_insertA he with he | he
    · subst he
      exact hname.trans (h.pkg_name (k, pkg) hmem)
    · exact h.pkg_name _ he
  · intro e he
    rcases mem_insertA he with he | he
    · subst he
      exact hterm
    · exact h.pkg_terminal _ he
  · intro e he
    rw [hkeq]
    exact h.cur_pkg e he

/-- Removing an in-flight entry preserves the invariant. -/
theorem inv_erase_cur {st : ParseState} (h : Inv st) (k : String) :
    Inv { st with currentTestResults := eraseA st.currentTestResults k } := by
  have hsub := eraseA_sublist st.currentTestResults k
  refine ⟨h.keys_sub, h.ordered_sub, h.key_ne, h.pkg_name, h.pkg_terminal,
    ?_, ?_, ?_, ?_, ?_⟩
  · exact fun e he => h.cur_key e (hsub.mem he)
  · exact fun e he => h.cur_running e (hsub.mem he)
  · exact fun e he => h.cur_dur e (hsub.mem he)
  · exact fun e he => h.cur_pkg e (hsub.mem he)
  · exact ((hsub.map Prod.fst).nodup h.cur_nodup)

/-- Inserting a fresh running in-flight entry preserves the invariant. -/
theorem inv_insert_cur {st : ParseState} (h : Inv st) {k : String}
    {tr : TestResult} (hk : k = tr.packageName ++ "/" ++ tr.name)
    (hs : tr.status = .running) (hd : tr.duration = 0)
    (hp : tr.packageName ∈ st.packageResults.map Prod.fst) :
    Inv { st with currentTestResults := insertA st.currentTestResults k tr } := by
  refine ⟨h.keys_sub, h.ordered_sub, h.key_ne, h.pkg_name, h.pkg_terminal,
    ?_, ?_, ?_, ?_, ?_⟩
  · intro e he
    rcases mem_insertA he with he | he
    · subst he; exact hk
    · exact h.cur_key e he
  · intro e he
    rcases mem_insertA he with he | he
    · subst he; exact hs
    · exact h.cur_running e he
  · intro e he
    rcases mem_insertA he with he | he
    · subst he; exact hd
    · exact h.cur_dur e he
  · intro e he
    rcases mem_insertA he with he | he
    · subst he; exact hp
    · exact h.cur_pkg e he
  · exact nodup_keys_insertA _ _ h.cur_nodup

/-- Registering a fresh package under a non-empty name preserves the
invariant. -/
theorem inv_register {st : ParseState} (h : Inv st) {n : String} (hn : n ≠ "") :
    Inv { st with
            packageResults := insertA st.packageResults n (freshPkg n)
            orderedPackageNames := addIfAbsent st.orderedPackageNames n } := by
  have hksup : ∀ m ∈ st.packageResults.map Prod.fst,
      m ∈ (insertA st.packageResults n (freshPkg n)).map Prod.fst := by
    intro m hm
    rw [keys_insertA]
    by_cases hmem : n ∈ st.packageResults.map Prod.fst
    · simpa [hmem] using hm
    · simp [hmem, hm]
  have hnin : n ∈ (insertA st.packageResults n (freshPkg n)).map Prod.fst := by
    rw [keys_insertA]
    by_cases hmem : n ∈ st.packageResults.map Prod.fst <;> simp [hmem]
  refine ⟨?_, ?_, ?_, ?_, ?_, h.cur_key, h.cur_running, h.cur_dur, ?_, h.cur_nodup⟩
  · intro m hm
    rw [keys_insertA] at hm
    by_cases hmem : n ∈ st.packageResults.map Prod.fst
    · rw [if_pos hmem] at hm
      unfold addIfAbsent
      by_cases ho : n ∈ st.orderedPackageNames
      · simpa [ho] using h.keys_sub m hm
      · simp only [if_neg ho, List.mem_append]
        exact Or.inl (h.keys_sub m hm)
    · rw [if_neg hmem, List.mem_append] at hm
      unfold addIfAbsent
      by_cases ho : n ∈ st.orderedPackageNames
      · rw [if_pos ho]
        rcases hm with hm | hm
        · exact h.keys_sub m hm
        · simpa using (List.mem_singleton.mp hm) ▸ ho
      · simp only [if_neg ho, List.mem_append]
        rcases hm with hm | hm
        · exact Or.inl (h.keys_sub m hm)
        · exact Or.inr hm
  · intro m hm
    unfold addIfAbsent at hm
    by_cases ho : n ∈ st.orderedPackageNames
    · rw [if_pos ho] at hm
      exact hksup m (h.ordered_sub m hm)
    · rw [if_neg ho, List.mem_append] at hm
      rcases hm with hm | hm
      · exact hksup m (h.ordered_sub m hm)
      · exact (List.mem_singleton.mp hm) ▸ hnin
  · intro e he
    rcases mem_insertA he with he | he
    · subst he; exact hn
    · exact h.key_ne _ he
  · intro e he
    rcases mem_insertA he with he | he
    · subst he; rfl
    · exact h.pkg_name _ he
  · intro e he
    rcases mem_insertA he with he | he
    · subst he; intro t ht; simp [freshPkg] at ht
    · exact h.pkg_terminal _ he
  · intro e he
    exact hksup _ (h.cur_pkg e he)

/-- Replacing the in-flight map by a sublist of itself preserves the
invariant. -/
theorem inv_set_cur_sublist {st : ParseState}
    {cur' : List (String × TestResult)} (h : Inv st)
    (hs : List.Sublist cur' st.currentTestResults) :
    Inv { st with currentTestResults := cur' } := by
  refine ⟨h.keys_sub, h.ordered_sub, h.key_ne, h.pkg_name, h.pkg_terminal,
    ?_, ?_, ?_, ?_, ?_⟩
  · exact fun e he => h.cur_key e (hs.mem he)
  · exact fun e he => h.cur_running e (hs.mem he)
  · exact fun e he => h.cur_dur e (hs.mem he)
  · exact fun e he => h.cur_pkg e (hs.mem he)
  · exact ((hs.map Prod.fst).nodup h.cur_nodup)

theorem inv_finishTest {st : ParseState} {ev : TestEvent} {pkg : PackageResult}
    (h : Inv st) (hpkg : lookupA st.packageResults ev.package = some pkg)
    {status : TestStatus} (duration : Int) (hstatus : terminalStatus status) :
    Inv (finishTest st ev pkg status duration) := by
  have hterm_old : ∀ t ∈ pkg.tests, terminalStatus t.status :=
    h.pkg_terminal _ (lookupA_mem hpkg)
  cases hcur : lookupA st.currentTestResults (ev.package ++ "/" ++ ev.test) with
  | some tr =>
    simp only [finishTest, hcur]
    refine inv_set_cur_sublist
      (inv_update_pkg h hpkg ?_ ?_) (eraseA_sublist _ _)
    · rfl
    · intro t ht
      rcases List.mem_append.mp ht with ht | ht
      · exact hterm_old t ht
      · rcases List.mem_singleton.mp ht with rfl
        exact hstatus
  | none =>
    simp only [finishTest, hcur]
    refine inv_set_cur_sublist
      (inv_update_pkg h hpkg ?_ ?_) (eraseA_sublist _ _)
    · rfl
    · intro t ht
      rcases List.mem_append.mp ht with ht | ht
      · exact hterm_old t ht
      · rcases List.mem_singleton.mp ht with rfl
        exact hstatus

theorem inv_finishPackage {st : ParseState} {ev : TestEvent}
    {pkg : PackageResult} (h : Inv st)
    (hpkg : lookupA st.packageResults ev.package = some pkg)
    (status : TestStatus) (duration : Int) :
    Inv (finishPackage st ev pkg status duration) := by
  have hterm_old : ∀ t ∈ pkg.tests, terminalStatus t.status :=
    h.pkg_terminal _ (lookupA_mem hpkg)
  have hterm2 : ∀ t ∈ pkg.tests ++
      (st.currentTestResults.filter
        (fun e => e.2.packageName = ev.package)).map (fun e => markPkgSweep e.2),
      terminalStatus t.status := by
    intro t ht
    rcases List.mem_append.mp ht with ht | ht
    · exact hterm_old t ht
    · obtain ⟨e, _, rfl⟩ := List.mem_map.mp ht
      exact Or.inr (Or.inl rfl)
  have key : ∀ pkg3 : PackageResult, pkg3.packageName = pkg.packageName →
      (∀ t ∈ pkg3.tests, terminalStatus t.status) →
      Inv { st with
              packageResults := insertA st.packageResults ev.package pkg3
              currentTestResults :=
                st.currentTestResults.filter
                  (fun e => ¬ e.2.packageName = ev.package) } :=
    fun pkg3 hn ht =>
      inv_set_cur_sublist (inv_update_pkg h hpkg hn ht) (List.filter_sublist _)
  unfold finishPackage
  dsimp only
  rw [sweepPackage_eq]
  dsimp only
  split
  · split
    · refine key _ rfl ?_
      intro t ht
      rcases List.mem_append.mp ht with ht | ht
      · exact hterm2 t ht
      · rcases List.mem_singleton.mp ht with rfl
        exact Or.inr (Or.inr rfl)
    · split
      · refine key _ rfl ?_
        intro t ht
        rcases List.mem_append.mp ht with ht | ht
        · exact hterm2 t ht
        · rcases List.mem_singleton.mp ht with rfl
          exact Or.inr (Or.inl rfl)
      · exact key _ rfl hterm2
  · exact key _ rfl hterm2

theorem inv_handleAction {st : ParseState} (h : Inv st) (ev : TestEvent) :
    Inv (handleAction st ev) := by
  unfold handleAction
  cases hpkg : lookupA st.packageResults ev.package with
  | none => exact h
  | some pkg =>
    have hmem : (ev.package, pkg) ∈ st.packageResults := lookupA_mem hpkg
    have hterm_old : ∀ t ∈ pkg.tests, terminalStatus t.status :=
      h.pkg_terminal _ hmem
    have hkeys : ev.package ∈ st.packageResults.map Prod.fst :=
      (lookupA_isSome_iff _ _).mp (by simp [hpkg])
    dsimp only
    split
    · -- action = "run"
      split
      · exact inv_insert_cur h rfl rfl rfl hkeys
      · exact inv_update_pkg h hpkg rfl hterm_old
    · split
      · -- action = "output"
        split
        · -- test-scoped output
          split
          · -- in-flight record found: append to its output
            next tr hcur =>
            refine inv_insert_cur h ?_ ?_ ?_ ?_
            · have := h.cur_key _ (lookupA_mem hcur)
              simpa using this
            · simpa using h.cur_running _ (lookupA_mem hcur)
            · simpa using h.cur_dur _ (lookupA_mem hcur)
            · simpa using h.cur_pkg _ (lookupA_mem hcur)
          · split
            · -- append to a completed test with a matching name
              refine inv_update_pkg h hpkg rfl ?_
              intro t ht
              obtain ⟨t₀, ht₀, hs, _, _⟩ := mem_appendToFirstMatch ht
              exact hs ▸ hterm_old t₀ ht₀
            · exact inv_update_pkg h hpkg rfl hterm_old
        · exact inv_update_pkg h hpkg rfl hterm_old
      · split
        · -- terminal action
          split
          · exact inv_finishTest h hpkg _ (terminalStatus_statusOfAction _)
          · exact inv_finishPackage h hpkg _ _
        · exact h

theorem inv_ensurePackage {st : ParseState} (h : Inv st) (ev : TestEvent) :
    ∀ st1 n, ensurePackage st ev = some (st1, n) →
      Inv st1 ∧ (lookupA st1.packageResults n).isSome := by
  intro st1 n hep
  unfold ensurePackage at hep
  cases hpkg : lookupA st.packageResults ev.package with
  | some pkg =>
    rw [hpkg] at hep
    simp only [Option.some.injEq, Prod.mk.injEq] at hep
    obtain ⟨rfl, rfl⟩ := hep
    exact ⟨h, by simp [hpkg]⟩
  | none =>
    rw [hpkg] at hep
    by_cases horph : ev.package = "" ∧ ev.test = "" ∧ ev.action = "output"
    · rw [if_pos horph] at hep
      simp only [Option.some.injEq, Prod.mk.injEq] at hep
      obtain ⟨rfl, rfl⟩ := hep
      refine ⟨inv_register h (by decide), ?_⟩
      rw [lookupA_isSome_iff, keys_insertA]
      split
      · assumption
      · simp
    · rw [if_neg horph] at hep
      by_cases hemp : ev.package = ""
      · rw [if_pos hemp] at hep
        exact absurd hep (by simp)
      · rw [if_neg hemp] at hep
        simp only [Option.some.injEq, Prod.mk.injEq] at hep
        obtain ⟨rfl, rfl⟩ := hep
        refine ⟨inv_register h hemp, ?_⟩
        rw [lookupA_isSome_iff, keys_insertA]
        split
        · assumption
        · simp

theorem inv_processEvent {st : ParseState} (h : Inv st) (ev : TestEvent) :
    Inv (processEvent st ev) := by
  unfold processEvent
  cases hep : ensurePackage st ev with
  | none => exact h
  | some r =>
    obtain ⟨st1, n⟩ := r
    exact inv_handleAction (inv_ensurePackage h ev st1 n hep).1 _

theorem inv_processLine {st : ParseState} (h : Inv st) (l : Line) :
    Inv (processLine st l) := by
  cases l with
  | empty => exact inv_lineNumber h _
  | event ev => exact inv_processEvent (inv_lineNumber h _) ev
  | malformed text =>
    unfold processLine
    dsimp only
    cases hlast : (st.orderedPackageNames).getLast? with
    | none => exact inv_lineNumber h _
    | some lastPkg =>
      dsimp only
      cases hpkg : lookupA st.packageResults lastPkg with
      | none => exact inv_lineNumber h _
      | some pkg =>
        dsimp only
        refine inv_update_pkg (inv_lineNumber h (st.lineNumber + 1)) hpkg ?_ ?_
        · rfl
        · exact h.pkg_terminal _ (lookupA_mem hpkg)

theorem inv_initState : Inv initState := by
  refine ⟨?_, ?_, ?_, ?_, ?_, ?_, ?_, ?_, ?_, ?_⟩ <;> simp [initState]

theorem inv_foldl {st : ParseState} (h : Inv st) (ls : List Line) :
    Inv (ls.foldl processLine st) := by
  induction ls generalizing st with
  | nil => exact h
  | cons l rest ih => exact ih (inv_processLine h l)

theorem inv_runLines (ls : List Line) : Inv (runLines ls) :=
  inv_foldl inv_initState ls

/-! ## Duration invariant preservation -/

theorem durOfElapsed_nonneg {e : ℚ} (h : 0 ≤ e) : 0 ≤ durOfElapsed e := by
  unfold durOfElapsed
  exact Int.tdiv_nonneg
    (mul_nonneg (Rat.num_nonneg.mpr h) (by norm_num)) (by positivity)

theorem durinv_insert {pkgs : List (String × PackageResult)} {k : String}
    {pkg' : PackageResult} (hd : DurInv pkgs) (h0 : 0 ≤ pkg'.duration)
    (ht : ∀ t ∈ pkg'.tests, 0 ≤ t.duration) : DurInv (insertA pkgs k pkg') := by
  constructor
  · intro e he
    rcases mem_insertA he with he | he
    · subst he; exact h0
    · exact hd.pkg_dur e he
  · intro e he
    rcases mem_insertA he with he | he
    · subst he; exact ht
    · exact hd.tests_dur e he

theorem durinv_finishTest {st : ParseState} {ev : TestEvent}
    {pkg : PackageResult} (hd : DurInv st.packageResults)
    (hpkg : lookupA st.packageResults ev.package = some pkg)
    (status : TestStatus) {duration : Int} (h0 : 0 ≤ duration) :
    DurInv (finishTest st ev pkg status duration).packageResults := by
  have hmem := lookupA_mem hpkg
  have hpd : 0 ≤ pkg.duration := hd.pkg_dur _ hmem
  have htd : ∀ t ∈ pkg.tests, 0 ≤ t.duration := hd.tests_dur _ hmem
  cases hcur : lookupA st.currentTestResults (ev.package ++ "/" ++ ev.test) with
  | some tr =>
    simp only [finishTest, hcur]
    refine durinv_insert hd hpd ?_
    intro t ht
    rcases List.mem_append.mp ht with ht | ht
    · exact htd t ht
    · rcases List.mem_singleton.mp ht with rfl
      exact h0
  | none =>
    simp only [finishTest, hcur]
    refine durinv_insert hd hpd ?_
    intro t ht
    rcases List.mem_append.mp ht with ht | ht
    · exact htd t ht
    · rcases List.mem_singleton.mp ht with rfl
      exact h0

theorem durinv_finishPackage {st : ParseState} {ev : TestEvent}
    {pkg : PackageResult} (hi : Inv st) (hd : DurInv st.packageResults)
    (hpkg : lookupA st.packageResults ev.package = some pkg)
    (status : TestStatus) {duration : Int} (h0 : 0 ≤ duration) :
    DurInv (finishPackage st ev pkg status duration).packageResults := by
  have hmem := lookupA_mem hpkg
  have htd : ∀ t ∈ pkg.tests, 0 ≤ t.duration := hd.tests_dur _ hmem
  have htd2 : ∀ t ∈ pkg.tests ++
      (st.currentTestResults.filter
        (fun e => e.2.packageName = ev.package)).map (fun e => markPkgSweep e.2),
      0 ≤ t.duration := by
    intro t ht
    rcases List.mem_append.mp ht with ht | ht
    · exact htd t ht
    · obtain ⟨e, he, rfl⟩ := List.mem_map.mp ht
      have := hi.cur_dur e (List.mem_of_mem_filter he)
      simp [markPkgSweep, this]
  have key : ∀ pkg3 : PackageResult, 0 ≤ pkg3.duration →
      (∀ t ∈ pkg3.tests, 0 ≤ t.duration) →
      DurInv (insertA st.packageResults ev.package pkg3) :=
    fun pkg3 hp3 ht3 => durinv_insert hd hp3 ht3
  unfold finishPackage
  dsimp only
  rw [sweepPackage_eq]
  dsimp only
  split
  · split
    · refine key _ h0 ?_
      intro t ht
      rcases List.mem_append.mp ht with ht | ht
      · exact htd2 t ht
      · rcases List.mem_singleton.mp ht with rfl
        exact h0
    · split
      · refine key _ h0 ?_
        intro t ht
        rcases List.mem_append.mp ht with ht | ht
        · exact htd2 t ht
        · rcases List.mem_singleton.mp ht with rfl
          exact h0
      · exact key _ h0 htd2
  · exact key _ h0 htd2

theorem durinv_handleAction {st : ParseState} (hi : Inv st)
    (hd : DurInv st.packageResults) (ev : TestEvent) (hel : 0 ≤ ev.elapsed) :
    DurInv (handleAction st ev).packageResults := by
  unfold handleAction
  cases hpkg : lookupA st.packageResults ev.package with
  | none => exact hd
  | some pkg =>
    have hmem : (ev.package, pkg) ∈ st.packageResults := lookupA_mem hpkg
    have hpd : 0 ≤ pkg.duration := hd.pkg_dur _ hmem
    have htd : ∀ t ∈ pkg.tests, 0 ≤ t.duration := hd.tests_dur _ hmem
    have h0 : 0 ≤ durOfElapsed ev.elapsed := durOfElapsed_nonneg hel
    dsimp only
    split
    · split
      · exact hd
      · exact durinv_insert hd hpd htd
    · split
      · split
        · split
          · exact hd
          · split
            · refine durinv_insert hd hpd ?_
              intro t ht
              obtain ⟨t₀, ht₀, _, hdur, _⟩ := mem_appendToFirstMatch ht
              exact hdur ▸ htd t₀ ht₀
            · exact durinv_insert hd hpd htd
        · exact durinv_insert hd hpd htd
      · split
        · split
          · exact durinv_finishTest hd hpkg _ h0
          · exact durinv_finishPackage hi hd hpkg _ h0
        · exact hd

theorem durinv_processLine {st : ParseState} (hi : Inv st)
    (hd : DurInv st.packageResults) (l : Line)
    (hl : ∀ e, l = Line.event e → 0 ≤ e.elapsed) :
    DurInv (processLine st l).packageResults := by
  cases l with
  | empty => exact hd
  | event ev =>
    have hel : 0 ≤ ev.elapsed := hl ev rfl
    show DurInv (processEvent { st with lineNumber := st.lineNumber + 1 } ev).packageResults
    unfold processEvent
    cases hep : ensurePackage { st with lineNumber := st.lineNumber + 1 } ev with
    | none => exact hd
    | some r =>
      obtain ⟨st1, n⟩ := r
      have hi1 := (inv_ensurePackage (inv_lineNumber hi _) ev st1 n hep).1
      have hd1 : DurInv st1.packageResults := by
        unfold ensurePackage at hep
        cases hpkg : lookupA st.packageResults ev.package with
        | some pkg =>
          rw [show lookupA ({ st with lineNumber := st.lineNumber + 1 } :
              ParseState).packageResults ev.package = some pkg from hpkg] at hep
          simp only [Option.some.injEq, Prod.mk.injEq] at hep
          obtain ⟨rfl, rfl⟩ := hep
          exact hd
        | none =>
          rw [show lookupA ({ st with lineNumber := st.lineNumber + 1 } :
              ParseState).packageResults ev.package = none from hpkg] at hep
          by_cases horph : ev.package = "" ∧ ev.test = "" ∧ ev.action = "output"
          · rw [if_pos horph] at hep
            simp only [Option.some.injEq, Prod.mk.injEq] at hep
            obtain ⟨rfl, rfl⟩ := hep
            exact durinv_insert hd (by simp [freshPkg]) (by simp [freshPkg])
          · rw [if_neg horph] at hep
            by_cases hemp : ev.package = ""
            · rw [if_pos hemp] at hep
              exact absurd hep (by simp)
            · rw [if_neg hemp] at hep
              simp only [Option.some.injEq, Prod.mk.injEq] at hep
              obtain ⟨rfl, rfl⟩ := hep
              exact durinv_insert hd (by simp [freshPkg]) (by simp [freshPkg])
      exact durinv_handleAction hi1 hd1 _ hel
  | malformed text =>
    show DurInv (processLine st (Line.malformed text)).packageResults
    unfold processLine
    dsimp only
    cases hlast : (st.orderedPackageNames).getLast? with
    | none => exact hd
    | some lastPkg =>
      dsimp only
      cases hpkg : lookupA st.packageResults lastPkg with
      | none => exact hd
      | some pkg =>
        dsimp only
        exact durinv_insert hd (hd.pkg_dur _ (lookupA_mem hpkg))
          (hd.tests_dur _ (lookupA_mem hpkg))

theorem durinv_foldl {st : ParseState} (hi : Inv st)
    (hd : DurInv st.packageResults) (ls : List Line)
    (hl : ∀ l ∈ ls, ∀ e, l = Line.event e → 0 ≤ e.elapsed) :
    DurInv ((ls.foldl processLine st).packageResults) := by
  induction ls generalizing st with
  | nil => exact hd
  | cons l rest ih =>
    exact ih (inv_processLine hi l)
      (durinv_processLine hi hd l (hl l (List.mem_cons_self _ _)))
      (fun l' hl' => hl l' (List.mem_cons_of_mem _ hl'))

/-! ## First-seen package order -/

theorem ordered_finishTest (st : ParseState) (ev : TestEvent)
    (pkg : PackageResult) (status : TestStatus) (duration : Int) :
    (finishTest st ev pkg status duration).orderedPackageNames =
      st.orderedPackageNames := by
  cases hcur : lookupA st.currentTestResults (ev.package ++ "/" ++ ev.test) with
  | some tr => simp only [finishTest, hcur]
  | none => simp only [finishTest, hcur]

theorem ordered_finishPackage (st : ParseState) (ev : TestEvent)
    (pkg : PackageResult) (status : TestStatus) (duration : Int) :
    (finishPackage st ev pkg status duration).orderedPackageNames =
      st.orderedPackageNames := by
  unfold finishPackage
  dsimp only

theorem ordered_handleAction (st : ParseState) (ev : TestEvent) :
    (handleAction st ev).orderedPackageNames = st.orderedPackageNames := by
  unfold handleAction
  cases hpkg : lookupA st.packageResults ev.package with
  | none => rfl
  | some pkg =>
    dsimp only
    split
    · split <;> rfl
    · split
      · split
        · split
          · rfl
          · split <;> rfl
        · rfl
      · split
        · split
          · exact ordered_finishTest _ _ _ _ _
          · exact ordered_finishPackage _ _ _ _ _
        · rfl

theorem ordered_processEvent {st : ParseState} (h : Inv st) (ev : TestEvent) :
    (processEvent st ev).orderedPackageNames =
      specSeenStep st.orderedPackageNames (Line.event ev) := by
  unfold processEvent ensurePackage
  cases hpkg : lookupA st.packageResults ev.package with
  | some pkg =>
    dsimp only
    rw [ordered_handleAction]
    have hmem := lookupA_mem hpkg
    have hne : ev.package ≠ "" := h.key_ne _ hmem
    have hord : ev.package ∈ st.orderedPackageNames :=
      h.keys_sub _ (List.mem_map.mpr ⟨_, hmem, rfl⟩)
    simp [specSeenStep, specSeenName, hne, addIfAbsent, hord]
  | none =>
    by_cases horph : ev.package = "" ∧ ev.test = "" ∧ ev.action = "output"
    · rw [if_pos horph]
      dsimp only
      rw [ordered_handleAction]
      simp [specSeenStep, specSeenName, horph.1, horph.2.1, horph.2.2]
    · rw [if_neg horph]
      by_cases hemp : ev.package = ""
      · rw [if_pos hemp]
        simp only [specSeenStep, specSeenName]
        rw [if_neg horph, if_pos hemp]
      · rw [if_neg hemp]
        dsimp only
        rw [ordered_handleAction]
        simp only [specSeenStep, specSeenName]
        rw [if_neg horph, if_neg hemp]

theorem ordered_processLine {st : ParseState} (h : Inv st) (l : Line) :
    (processLine st l).orderedPackageNames =
      specSeenStep st.orderedPackageNames l := by
  cases l with
  | empty => rfl
  | event ev =>
    show (processEvent { st with lineNumber := st.lineNumber + 1 } ev).orderedPackageNames = _
    rw [ordered_processEvent (inv_lineNumber h _)]
  | malformed text =>
    unfold processLine
    dsimp only
    cases hlast : (st.orderedPackageNames).getLast? with
    | none => rfl
    | some lastPkg =>
      dsimp only
      cases hpkg : lookupA st.packageResults lastPkg with
      | none => rfl
      | some pkg => rfl

theorem ordered_foldl {st : ParseState} (h : Inv st) (ls : List Line) :
    (ls.foldl processLine st).orderedPackageNames =
      ls.foldl specSeenStep st.orderedPackageNames := by
  induction ls generalizing st with
  | nil => rfl
  | cons l rest ih =>
    simp only [List.foldl_cons]
    rw [ih (inv_processLine h l), ordered_processLine h l]

/-! ## Assembly of the final list -/

theorem sorted_sortTests (ts : List TestResult) :
    List.Sorted nameLe (sortTests ts) :=
  List.sorted_insertionSort _ _

theorem perm_sortTests (ts : List TestResult) : (sortTests ts).Perm ts :=
  List.perm_insertionSort _ _

theorem mem_parse {ls : List Line} {q : PackageResult} (hq : q ∈ Parse ls) :
    ∃ n p, n ∈ (runLines ls).orderedPackageNames ∧
      lookupA (finalizeState (runLines ls)).packageResults n = some p ∧
      q = { p with tests := sortTests p.tests } := by
  obtain ⟨n, hn, hsome⟩ := List.mem_filterMap.mp hq
  cases hp : lookupA (finalizeState (runLines ls)).packageResults n with
  | none => rw [hp] at hsome; simp at hsome
  | some p =>
    rw [hp] at hsome
    simp only [Option.map_some', Option.some.injEq] at hsome
    exact ⟨n, p, hn, hp, hsome.symm⟩

theorem parse_mem_of_lookup {ls : List Line} {n : String} {p : PackageResult}
    (hn : n ∈ (runLines ls).orderedPackageNames)
    (hp : lookupA (finalizeState (runLines ls)).packageResults n = some p) :
    { p with tests := sortTests p.tests } ∈ Parse ls :=
  List.mem_filterMap.mpr ⟨n, hn, by rw [hp]; rfl⟩

theorem names_filterMap {names : List String}
    {pkgs : List (String × PackageResult)}
    (h : ∀ n ∈ names, ∃ p, lookupA pkgs n = some p ∧ p.packageName = n) :
    (names.filterMap fun n =>
        (lookupA pkgs n).map fun p =>
          { p with tests := sortTests p.tests }).map PackageResult.packageName =
      names := by
  induction names with
  | nil => rfl
  | cons n rest ih =>
    obtain ⟨p, hp, hname⟩ := h n (List.mem_cons_self _ _)
    simp only [List.filterMap_cons, hp, Option.map_some']
    simp only [List.map_cons]
    rw [ih (fun m hm => h m (List.mem_cons_of_mem _ hm))]
    simpa using hname

/-- The package looked up after the end-of-stream sweep, in terms of the
pre-sweep state. -/
theorem lookup_finalizeState {st : ParseState} (h : Inv st) (P : String) :
    lookupA (finalizeState st).packageResults P =
      (lookupA st.packageResults P).map (fun p =>
        { p with
            tests := p.tests ++
              (st.currentTestResults.filter (fun e => e.2.packageName = P)).map
                (fun e => markEofSweep e.2)
            status :=
              if st.currentTestResults.any (fun e => e.2.packageName = P) then
                .fail
              else p.status }) :=
  lookupA_foldl_finalizeStep _ _ _ h.cur_running

theorem parse_names {ls : List Line} :
    (Parse ls).map PackageResult.packageName =
      (runLines ls).orderedPackageNames := by
  have hin : Inv (runLines ls) := inv_runLines ls
  refine names_filterMap ?_
  intro n hn
  have hsome : (lookupA (runLines ls).packageResults n).isSome :=
    (lookupA_isSome_iff _ _).mpr (hin.ordered_sub n hn)
  obtain ⟨p0, hp0⟩ := Option.isSome_iff_exists.mp hsome
  have hname : p0.packageName = n := hin.pkg_name _ (lookupA_mem hp0)
  rw [lookup_finalizeState hin, hp0]
  exact ⟨_, rfl, by simpa using hname⟩

/-! ## Remaining helper lemmas -/

theorem length_le_one_of_nodup_map {α β : Type} {l : List α} {f : α → β}
    {a : β} (hnd : (l.map f).Nodup) (hall : ∀ x ∈ l, f x = a) :
    l.length ≤ 1 := by
  match l with
  | [] => simp
  | [x] => simp
  | x :: y :: rest =>
    exfalso
    have hx : f x = a := hall x (List.mem_cons_self _ _)
    have hy : f y = a := hall y (List.mem_cons_of_mem _ (List.mem_cons_self _ _))
    have : f x ≠ f y := by
      have := (List.nodup_cons.mp hnd).1
      intro hcontra
      exact this (by rw [hcontra]; simp)
    exact this (hx.trans hy.symm)

/-- One orphaned-output event, processed from a state holding only the
orphaned bucket: the event re-creates the bucket, so the previous summary
line is replaced by the new one. -/
theorem orphan_step (s X : String) (n : Nat) :
    processLine
      ⟨[(orphanedOutputPackage,
         ⟨orphanedOutputPackage, .unknown, [X], [], 0⟩)],
       [orphanedOutputPackage], [], n⟩
      (Line.event ⟨"output", "", "", 0, s⟩) =
      ⟨[(orphanedOutputPackage,
         ⟨orphanedOutputPackage, .unknown, [trimNewlines s], [], 0⟩)],
       [orphanedOutputPackage], [], n + 1⟩ := rfl

theorem orphan_foldl (ss : List String) :
    ∀ (n : Nat) (X : String), ∃ m,
      List.foldl processLine
      ⟨[(orphanedOutputPackage,
         ⟨orphanedOutputPackage, .unknown, [X], [], 0⟩)],
       [orphanedOutputPackage], [], n⟩
      (ss.map fun t => Line.event ⟨"output", "", "", 0, t⟩) =
      ⟨[(orphanedOutputPackage,
         ⟨orphanedOutputPackage, .unknown,
          [(ss.map trimNewlines).getLastD X], [], 0⟩)],
       [orphanedOutputPackage], [], m⟩ := by
  induction ss with
  | nil => intro n X; exact ⟨n, rfl⟩
  | cons s rest ih =>
    intro n X
    simp only [List.map_cons, List.foldl_cons]
    rw [orphan_step]
    obtain ⟨m, hm⟩ := ih (n + 1) (trimNewlines s)
    refine ⟨m, ?_⟩
    rw [hm, List.getLastD_cons]

/-! ## Preservation of the orphaned-output bucket -/

/-- Under the invariant the empty package name is never registered, so the
lookup the event loop performs for an orphaned output event always misses. -/
theorem lookupA_empty_none {st : ParseState} (h : Inv st) :
    lookupA st.packageResults "" = none := by
  cases hl : lookupA st.packageResults "" with
  | none => rfl
  | some v => exact absurd rfl (h.key_ne ("", v) (lookupA_mem hl))

/-- Writing the same key twice keeps only the second value. -/
theorem insertA_insertA {α : Type} (l : List (String × α)) (k : String)
    (v w : α) : insertA (insertA l k v) k w = insertA l k w := by
  induction l with
  | nil => simp [insertA]
  | cons e rest ih =>
    obtain ⟨k', v'⟩ := e
    by_cases h : k' = k
    · simp [insertA, h]
    · simp [insertA, h, ih]

theorem mem_addIfAbsent {l : List String} {a : String} (b : String)
    (h : a ∈ l) : a ∈ addIfAbsent l b := by
  unfold addIfAbsent
  split
  · exact h
  · exact List.mem_append_left _ h

theorem mem_addIfAbsent_self (l : List String) (b : String) :
    b ∈ addIfAbsent l b := by
  unfold addIfAbsent
  split
  · assumption
  · exact List.mem_append_right _ (List.mem_singleton.mpr rfl)

/-- The in-flight map after `finishTest`: the finalized key is erased. -/
theorem cur_finishTest (st : ParseState) (ev : TestEvent) (pkg : PackageResult)
    (status : TestStatus) (duration : Int) :
    (finishTest st ev pkg status duration).currentTestResults =
      eraseA st.currentTestResults (ev.package ++ "/" ++ ev.test) := by
  cases hc : lookupA st.currentTestResults (ev.package ++ "/" ++ ev.test) with
  | some tr => simp only [finishTest, hc]
  | none => simp only [finishTest, hc]

/-- The in-flight map after `finishPackage`: the package's tests are swept
out, the rest is kept. -/
theorem cur_finishPackage (st : ParseState) (ev : TestEvent)
    (pkg : PackageResult) (status : TestStatus) (duration : Int) :
    (finishPackage st ev pkg status duration).currentTestResults =
      st.currentTestResults.filter (fun e => ¬ e.2.packageName = ev.package) := by
  unfold finishPackage
  dsimp only
  rw [sweepPackage_eq]

/-- `finishTest` only writes the package map at the event's package key. -/
theorem lookupA_finishTest_ne (st : ParseState) (ev : TestEvent)
    (pkg : PackageResult) (status : TestStatus) (duration : Int) (n : String)
    (hne : n ≠ ev.package) :
    lookupA (finishTest st ev pkg status duration).packageResults n =
      lookupA st.packageResults n := by
  cases hc : lookupA st.currentTestResults (ev.package ++ "/" ++ ev.test) with
  | some tr =>
    simp only [finishTest, hc]
    rw [lookupA_insertA, if_neg hne]
  | none =>
    simp only [finishTest, hc]
    rw [lookupA_insertA, if_neg hne]

/-- `finishPackage` only writes the package map at the event's package key. -/
theorem lookupA_finishPackage_ne (st : ParseState) (ev : TestEvent)
    (pkg : PackageResult) (status : TestStatus) (duration : Int) (n : String)
    (hne : n ≠ ev.package) :
    lookupA (finishPackage st ev pkg status duration).packageResults n =
      lookupA st.packageResults n := by
  unfold finishPackage
  dsimp only
  rw [lookupA_insertA, if_neg hne]

/-- `handleAction` never touches package-map entries other than the event's
own package. -/
theorem lookupA_handleAction_ne (st : ParseState) (ev : TestEvent) (n : String)
    (hne : n ≠ ev.package) :
    lookupA (handleAction st ev).packageResults n =
      lookupA st.packageResults n := by
  unfold handleAction
  cases hpkg : lookupA st.packageResults ev.package with
  | none => rfl
  | some pkg =>
    dsimp only
    split
    · split
      · rfl
      · dsimp only
        rw [lookupA_insertA, if_neg hne]
    · split
      · split
        · split
          · rfl
          · split
            · dsimp only
              rw [lookupA_insertA, if_neg hne]
            · dsimp only
              rw [lookupA_insertA, if_neg hne]
        · dsimp only
          rw [lookupA_insertA, if_neg hne]
      · split
        · split
          · exact lookupA_finishTest_ne st ev pkg
              (statusOfAction ev.action) (durOfElapsed ev.elapsed) n hne
          · exact lookupA_finishPackage_ne st ev pkg
              (statusOfAction ev.action) (durOfElapsed ev.elapsed) n hne
        · rfl

/-- `handleAction` adds in-flight records only for the event's own package. -/
theorem cur_handleAction_not {st : ParseState} {ev : TestEvent} {n : String}
    (hne : ev.package ≠ n)
    (hcur : ∀ e ∈ st.currentTestResults, e.2.packageName ≠ n) :
    ∀ e ∈ (handleAction st ev).currentTestResults, e.2.packageName ≠ n := by
  unfold handleAction
  cases hpkg : lookupA st.packageResults ev.package with
  | none => exact hcur
  | some pkg =>
    dsimp only
    split
    · split
      · intro e he
        dsimp only at he
        rcases mem_insertA he with heq | he
        · subst heq
          exact hne
        · exact hcur e he
      · exact hcur
    · split
      · split
        · split
          · next tr htr =>
            intro e he
            dsimp only at he
            rcases mem_insertA he with heq | he
            · subst heq
              have hmem : (ev.package ++ "/" ++ ev.test, tr) ∈
                  st.currentTestResults := lookupA_mem htr
              have htn : tr.packageName ≠ n := hcur _ hmem
              exact htn
            · exact hcur e he
          · split
            · exact hcur
            · exact hcur
        · exact hcur
      · split
        · split
          · intro e he
            rw [cur_finishTest] at he
            exact hcur e (mem_eraseA he)
          · intro e he
            rw [cur_finishPackage] at he
            exact hcur e (List.mem_of_mem_filter he)
        · exact hcur

/-- An `output` event with no test name leaves the in-flight map alone. -/
theorem cur_handleAction_output_noTest {st : ParseState} {ev : TestEvent}
    (ha : ev.action = "output") (ht : ev.test = "") :
    (handleAction st ev).currentTestResults = st.currentTestResults := by
  unfold handleAction
  cases hpkg : lookupA st.packageResults ev.package with
  | none => rfl
  | some pkg =>
    dsimp only
    simp only [ha, ht]
    rfl

/-- Inversion of the "ensure package exists" preamble. -/
theorem ensurePackage_cases {st : ParseState} {ev : TestEvent}
    {st1 : ParseState} {n : String}
    (hep : ensurePackage st ev = some (st1, n)) :
    (st1 = st ∧ n = ev.package) ∨
    (st1 = { st with
        packageResults := insertA st.packageResults orphanedOutputPackage
          (freshPkg orphanedOutputPackage)
        orderedPackageNames :=
          addIfAbsent st.orderedPackageNames orphanedOutputPackage } ∧
      n = orphanedOutputPackage ∧ ev.package = "" ∧ ev.test = "" ∧
      ev.action = "output") ∨
    (st1 = { st with
        packageResults :=
          insertA st.packageResults ev.package (freshPkg ev.package)
        orderedPackageNames := addIfAbsent st.orderedPackageNames ev.package } ∧
      n = ev.package) := by
  unfold ensurePackage at hep
  cases hpkg : lookupA st.packageResults ev.package with
  | some pkg =>
    rw [hpkg] at hep
    simp only [Option.some.injEq, Prod.mk.injEq] at hep
    exact Or.inl ⟨hep.1.symm, hep.2.symm⟩
  | none =>
    rw [hpkg] at hep
    by_cases horph : ev.package = "" ∧ ev.test = "" ∧ ev.action = "output"
    · rw [if_pos horph] at hep
      simp only [Option.some.injEq, Prod.mk.injEq] at hep
      exact Or.inr (Or.inl
        ⟨hep.1.symm, hep.2.symm, horph.1, horph.2.1, horph.2.2⟩)
    · rw [if_neg horph] at hep
      by_cases hemp : ev.package = ""
      · rw [if_pos hemp] at hep
        exact absurd hep (by simp)
      · rw [if_neg hemp] at hep
        simp only [Option.some.injEq, Prod.mk.injEq] at hep
        exact Or.inr (Or.inr ⟨hep.1.symm, hep.2.symm⟩)

/-- Events not naming the orphaned-output package never put an in-flight
record of that package into the state. -/
theorem curnot_processEvent {st : ParseState} (ev : TestEvent)
    (hev : ev.package ≠ orphanedOutputPackage)
    (hcur : ∀ e ∈ st.currentTestResults,
      e.2.packageName ≠ orphanedOutputPackage) :
    ∀ e ∈ (processEvent st ev).currentTestResults,
      e.2.packageName ≠ orphanedOutputPackage := by
  cases hep : ensurePackage st ev with
  | none =>
    simp only [processEvent, hep]
    exact hcur
  | some r =>
    obtain ⟨st1, m⟩ := r
    simp only [processEvent, hep]
    rcases ensurePackage_cases hep with ⟨h1, h2⟩ | ⟨h1, h2, _, hte, hae⟩ | ⟨h1, h2⟩
    · subst h1; subst h2
      exact cur_handleAction_not hev hcur
    · subst h1; subst h2
      intro e he
      rw [@cur_handleAction_output_noTest _
        ({ ev with package := orphanedOutputPackage }) hae hte] at he
      exact hcur e he
    · subst h1; subst h2
      exact cur_handleAction_not hev hcur

/-- Lifting `curnot_processEvent` to lines. -/
theorem curnot_processLine {st : ParseState} (l : Line)
    (hl : notBucketEvent l)
    (hcur : ∀ e ∈ st.currentTestResults,
      e.2.packageName ≠ orphanedOutputPackage) :
    ∀ e ∈ (processLine st l).currentTestResults,
      e.2.packageName ≠ orphanedOutputPackage := by
  cases l with
  | empty => exact hcur
  | malformed text =>
    unfold processLine
    dsimp only
    cases hlast : (st.orderedPackageNames).getLast? with
    | none => exact hcur
    | some lastPkg =>
      dsimp only
      cases hpkg : lookupA st.packageResults lastPkg with
      | none => exact hcur
      | some pkg => exact hcur
  | event ev => exact curnot_processEvent ev hl hcur

theorem curnot_foldl (ls : List Line) :
    ∀ (st : ParseState), (∀ l ∈ ls, notBucketEvent l) →
    (∀ e ∈ st.currentTestResults,
      e.2.packageName ≠ orphanedOutputPackage) →
    ∀ e ∈ (ls.foldl processLine st).currentTestResults,
      e.2.packageName ≠ orphanedOutputPackage := by
  induction ls with
  | nil => intro st _ hst; exact hst
  | cons l rest ih =>
    intro st h hst
    simp only [List.foldl_cons]
    exact ih _ (fun x hx => h x (List.mem_cons_of_mem _ hx))
      (curnot_processLine l (h l (List.mem_cons_self _ _)) hst)

theorem curnot_runLines (ls : List Line)
    (h : ∀ l ∈ ls, notBucketEvent l) :
    ∀ e ∈ (runLines ls).currentTestResults,
      e.2.packageName ≠ orphanedOutputPackage :=
  curnot_foldl ls initState h (fun e he => absurd he (List.not_mem_nil e))

/-- An orphaned output event (empty package, empty test, action `output`),
processed from any state satisfying the invariant: the bucket is re-created
with exactly this event's trimmed line, everything else is untouched. -/
theorem orphan_event_step {st : ParseState} (h : Inv st) (s : String) :
    processLine st (Line.event ⟨"output", "", "", 0, s⟩) =
      { st with
          packageResults := insertA st.packageResults orphanedOutputPackage
            ⟨orphanedOutputPackage, TestStatus.unknown, [trimNewlines s], [], 0⟩
          orderedPackageNames :=
            addIfAbsent st.orderedPackageNames orphanedOutputPackage
          lineNumber := st.lineNumber + 1 } := by
  have h0 : lookupA st.packageResults "" = none := lookupA_empty_none h
  show processEvent { st with lineNumber := st.lineNumber + 1 }
    ⟨"output", "", "", 0, s⟩ = _
  unfold processEvent ensurePackage
  dsimp only
  rw [h0]
  dsimp only
  rw [if_pos ⟨rfl, rfl, rfl⟩]
  dsimp only
  unfold handleAction
  dsimp only
  rw [lookupA_insertA, if_pos rfl]
  dsimp only
  rw [if_neg (by decide : ¬ ("output" : String) = "run"),
    if_pos (rfl : ("output" : String) = "output"),
    if_neg (by decide : ¬ ("" : String) ≠ "")]
  rw [insertA_insertA]
  rfl

/-- Processing an event that neither is an orphaned output event nor names
the orphaned-output package keeps the bucket intact. -/
theorem bucketIntact_processEvent {st : ParseState} {B : PackageResult}
    {ev : TestEvent} (hb : BucketIntact st B)
    (hev1 : ev.package ≠ orphanedOutputPackage)
    (hev2 : ¬ (ev.package = "" ∧ ev.test = "" ∧ ev.action = "output")) :
    BucketIntact (processEvent st ev) B := by
  cases hep : ensurePackage st ev with
  | none =>
    simp only [processEvent, hep]
    exact hb
  | some r =>
    obtain ⟨st1, m⟩ := r
    simp only [processEvent, hep]
    rcases ensurePackage_cases hep with ⟨h1, h2⟩ | ⟨_, _, hpe, hte, hae⟩ | ⟨h1, h2⟩
    · subst h1; subst h2
      refine ⟨?_, ?_, ?_⟩
      · exact (lookupA_handleAction_ne _ _ _ (fun hh => hev1 hh.symm)).trans hb.1
      · rw [ordered_handleAction]
        exact hb.2.1
      · exact cur_handleAction_not hev1 hb.2.2
    · exact absurd ⟨hpe, hte, hae⟩ hev2
    · subst h1; subst h2
      refine ⟨?_, ?_, ?_⟩
      · refine (lookupA_handleAction_ne _ _ _ (fun hh => hev1 hh.symm)).trans ?_
        dsimp only
        rw [lookupA_insertA, if_neg (fun hh => hev1 hh.symm)]
        exact hb.1
      · rw [ordered_handleAction]
        dsimp only
        exact mem_addIfAbsent _ hb.2.1
      · exact cur_handleAction_not hev1 hb.2.2

/-- Lifting `bucketIntact_processEvent` to lines. -/
theorem bucketIntact_processLine {st : ParseState} {B : PackageResult}
    {l : Line} (hb : BucketIntact st B) (hl : cleanAfterOrphan l) :
    BucketIntact (processLine st l) B := by
  cases l with
  | empty => exact hb
  | malformed text =>
    have hl' : False := hl
    exact hl'.elim
  | event ev =>
    have hl' : ev.package ≠ orphanedOutputPackage ∧
        ¬ (ev.package = "" ∧ ev.test = "" ∧ ev.action = "output") := hl
    exact bucketIntact_processEvent hb hl'.1 hl'.2

theorem bucketIntact_foldl {st : ParseState} {B : PackageResult}
    (hb : BucketIntact st B) (ls : List Line)
    (hl : ∀ l ∈ ls, cleanAfterOrphan l) :
    BucketIntact (ls.foldl processLine st) B := by
  induction ls generalizing st with
  | nil => exact hb
  | cons l rest ih =>
    simp only [List.foldl_cons]
    exact ih (bucketIntact_processLine hb (hl l (List.mem_cons_self _ _)))
      (fun x hx => hl x (List.mem_cons_of_mem _ hx))

/-- An intact bucket survives the end-of-stream sweep unchanged: no
in-flight test belongs to it, so no record is swept into it. -/
theorem lookup_finalize_bucket {st : ParseState} {B : PackageResult}
    (h : Inv st) (hb : BucketIntact st B) :
    lookupA (finalizeState st).packageResults orphanedOutputPackage =
      some B := by
  rw [lookup_finalizeState h, hb.1]
  have hfilt : List.filter
      (fun e => decide (e.2.packageName = orphanedOutputPackage))
      st.currentTestResults = [] := by
    rw [List.filter_eq_nil_iff]
    intro a ha
    simpa using hb.2.2 a ha
  have hany : (st.currentTestResults.any
      fun e => decide (e.2.packageName = orphanedOutputPackage)) = false := by
    rw [List.any_eq_false]
    intro a ha
    simpa using hb.2.2 a ha
  simp [hfilt, hany]

/-! # Claims

One theorem per claim of the specification review, with counterexamples and
witnesses where required. -/

/-- C1, counterexample: a single test-level `fail` event finalizes test `T`
of package `p` as `FAIL`, yet the package's final status is `UNKNOWN` (not
`FAIL`): a test failure reported by its own terminal event never forces the
package status, so the claimed order-independent monotonicity is false. -/
theorem claim_C1_counterexample :
    ∃ p ∈ Parse [Line.event ⟨"fail", "p", "T", 0, ""⟩],
      (∃ t ∈ p.tests, t.status = TestStatus.fail) ∧
        p.status ≠ TestStatus.fail := by
  decide

/-- C1 (amended): the failure-forcing that `Parse` actually implements is
tied to the sweeps, not to test-level fail events: whenever some test of
package `P` is still in flight when the stream ends, the end-of-stream sweep
forces `P`'s final status to `fail`.  A test finalized as `fail` by its own
terminal event does not by itself force `P`'s status, which follows `P`'s
last package-level status write instead. -/
theorem claim_C1_amended (ls : List Line) (P : String)
    (h : ∃ e ∈ (runLines ls).currentTestResults, e.2.packageName = P) :
    ∃ q ∈ Parse ls, q.packageName = P ∧ q.status = TestStatus.fail := by
  obtain ⟨e, he, hP⟩ := h
  have hin := inv_runLines ls
  have hkey : P ∈ (runLines ls).packageResults.map Prod.fst :=
    hP ▸ hin.cur_pkg e he
  have hord : P ∈ (runLines ls).orderedPackageNames := hin.keys_sub _ hkey
  obtain ⟨p0, hp0⟩ :=
    Option.isSome_iff_exists.mp ((lookupA_isSome_iff _ _).mpr hkey)
  have hname : p0.packageName = P := hin.pkg_name _ (lookupA_mem hp0)
  have hany :
      ((runLines ls).currentTestResults.any
        fun x => decide (x.2.packageName = P)) = true :=
    List.any_eq_true.mpr ⟨e, he, by simp [hP]⟩
  have hfin := lookup_finalizeState hin P
  rw [hp0] at hfin
  simp only [Option.map_some'] at hfin
  refine ⟨_, parse_mem_of_lookup hord hfin, ?_, ?_⟩
  · simpa using hname
  · simp [hany]

/-- C1, witness for the amended theorem, at the stream consisting of a
single `run` event for test `T` of package `p`. -/
theorem claim_C1_witness :
    ∃ q ∈ Parse [Line.event ⟨"run", "p", "T", 0, ""⟩],
      q.packageName = "p" ∧ q.status = TestStatus.fail :=
  claim_C1_amended [Line.event ⟨"run", "p", "T", 0, ""⟩] "p" (by decide)

/-- C2, counterexample: an event stream may carry a negative `Elapsed`
(nothing in `Parse` clamps it), and `Parse` then emits a test whose duration
is negative, refuting the claimed unconditional non-negativity. -/
theorem claim_C2_counterexample :
    ∃ p ∈ Parse [Line.event ⟨"fail", "p", "T", -1, ""⟩],
      ∃ t ∈ p.tests, t.duration < 0 := by
  decide

/-- C2 (amended): every `TestResult` in the final list unconditionally has
a terminal status (never `RUNNING` or `UNKNOWN`); its duration is
non-negative provided every event of the stream carries a non-negative
`Elapsed` (which is the only source of negative durations). -/
theorem claim_C2_amended (ls : List Line) :
    (∀ q ∈ Parse ls, ∀ t ∈ q.tests, terminalStatus t.status) ∧
    ((∀ l ∈ ls, elapsedNonneg l) →
      ∀ q ∈ Parse ls, ∀ t ∈ q.tests, 0 ≤ t.duration) := by
  have hin := inv_runLines ls
  constructor
  · intro q hq t ht
    obtain ⟨n, p, hn, hp, rfl⟩ := mem_parse hq
    have ht' : t ∈ p.tests := ((perm_sortTests p.tests).mem_iff).mp ht
    rw [lookup_finalizeState hin] at hp
    obtain ⟨p0, hp0, hFp⟩ := Option.map_eq_some'.mp hp
    subst hFp
    rcases List.mem_append.mp ht' with hta | htb
    · exact hin.pkg_terminal _ (lookupA_mem hp0) t hta
    · obtain ⟨x, hx, rfl⟩ := List.mem_map.mp htb
      exact Or.inr (Or.inl rfl)
  · intro h
    have hel : ∀ l ∈ ls, ∀ e, l = Line.event e → 0 ≤ e.elapsed := by
      intro l hl e he
      have hh := h l hl
      rw [he] at hh
      exact hh
    have hd : DurInv (runLines ls).packageResults :=
      durinv_foldl inv_initState ⟨by simp [initState], by simp [initState]⟩ ls hel
    intro q hq t ht
    obtain ⟨n, p, hn, hp, rfl⟩ := mem_parse hq
    have ht' : t ∈ p.tests := ((perm_sortTests p.tests).mem_iff).mp ht
    rw [lookup_finalizeState hin] at hp
    obtain ⟨p0, hp0, hFp⟩ := Option.map_eq_some'.mp hp
    subst hFp
    rcases List.mem_append.mp ht' with hta | htb
    · exact hd.tests_dur _ (lookupA_mem hp0) t hta
    · obtain ⟨x, hx, rfl⟩ := List.mem_map.mp htb
      have hz := hin.cur_dur x (List.mem_of_mem_filter hx)
      simp [markEofSweep, hz]

/-- C2, witness for the amended theorem: the swept test of an interrupted
stream has terminal status (unconditional half) and, since the stream's
`Elapsed` values are non-negative, a non-negative duration. -/
theorem claim_C2_witness :
    terminalStatus
        (⟨"p", "T", TestStatus.fail, [eofSweepDiag], 0⟩ : TestResult).status ∧
      0 ≤ (⟨"p", "T", TestStatus.fail, [eofSweepDiag], 0⟩ : TestResult).duration :=
  ⟨(claim_C2_amended [Line.event ⟨"run", "p", "T", 0, ""⟩]).1
    ⟨"p", TestStatus.fail, [], [⟨"p", "T", TestStatus.fail, [eofSweepDiag], 0⟩], 0⟩
    (by decide) _ (by decide),
   (claim_C2_amended [Line.event ⟨"run", "p", "T", 0, ""⟩]).2 (by decide)
    ⟨"p", TestStatus.fail, [], [⟨"p", "T", TestStatus.fail, [eofSweepDiag], 0⟩], 0⟩
    (by decide) _ (by decide)⟩

/-- C5: the build-failure scenario.  The stream `{run pkgB}`,
`{output pkgB "# build failed"}`, `{fail pkgB, elapsed=0}` yields exactly
one package `pkgB` with status `fail`, containing exactly one synthetic
placeholder test with status `fail` whose output carries the build-failure
summary line, and `pkgB`'s summary output is empty afterwards. -/
theorem claim_C5 :
    Parse [Line.event ⟨"run", "pkgB", "", 0, ""⟩,
           Line.event ⟨"output", "pkgB", "", 0, "# build failed"⟩,
           Line.event ⟨"fail", "pkgB", "", 0, ""⟩] =
      [⟨"pkgB", TestStatus.fail, [],
        [⟨"pkgB", "Package pkgB Build Failed", TestStatus.fail,
          ["# build failed"], 0⟩], 0⟩] := by
  decide

/-- C6: when the subprocess reports an error and zero bytes of structured
output were accumulated, `updateOnTestsComplete` yields exactly one
synthetic top-level failing `PackageResult` with one failing placeholder
test whose output includes the raw process error text. -/
theorem claim_C6 (e : String) :
    updateOnTestsComplete [] (some e) = [execErrorResult e] ∧
      (execErrorResult e).status = TestStatus.fail ∧
      ∃ t, (execErrorResult e).tests = [t] ∧ t.status = TestStatus.fail ∧
        ("Command `go test` failed: " ++ e) ∈ t.output := by
  refine ⟨rfl, rfl, _, rfl, rfl, ?_⟩
  simp [execErrorResult]

/-- C9: a `Single`-scope run configuration with an empty target path or an
empty test-name filter, and a `Package`-scope configuration with an empty
target path, fail validation inside `ExecuteTestsCmd` before any subprocess
is spawned: the outcome is a configuration error whose channel traffic is a
single completion message and no output-line message. -/
theorem claim_C9 (cfg : TestRunConfig)
    (h : (cfg.type = TestTargetType.singleTest ∧
            (cfg.packagePath = "" ∨ cfg.testName = "")) ∨
         (cfg.type = TestTargetType.packageTests ∧ cfg.packagePath = "")) :
    ∃ err, executeTestsValidate cfg = CmdOutcome.configError err ∧
      configErrorMessages err = [RunnerMsg.complete (some err)] ∧
      ∀ line, RunnerMsg.outputLine line ∉ configErrorMessages err := by
  rcases h with ⟨ht, hpe⟩ | ⟨ht, hpe⟩
  · have hout : executeTestsValidate cfg = CmdOutcome.configError
        "ExecuteTestsCmd: SingleTest requires a valid PackagePath and TestName" := by
      unfold executeTestsValidate
      rw [ht]
      simp [hpe]
    exact ⟨_, hout, rfl, fun line => by simp [configErrorMessages]⟩
  · have hout : executeTestsValidate cfg = CmdOutcome.configError
        "ExecuteTestsCmd: PackageTests requires a valid PackagePath" := by
      unfold executeTestsValidate
      rw [ht]
      simp [hpe]
    exact ⟨_, hout, rfl, fun line => by simp [configErrorMessages]⟩

/-- C9, witness: a `Single` configuration with an empty target path. -/
theorem claim_C9_witness :
    ∃ err, executeTestsValidate ⟨TestTargetType.singleTest, "", "", ""⟩ =
        CmdOutcome.configError err ∧
      configErrorMessages err = [RunnerMsg.complete (some err)] ∧
      ∀ line, RunnerMsg.outputLine line ∉ configErrorMessages err :=
  claim_C9 ⟨TestTargetType.singleTest, "", "", ""⟩ (Or.inl ⟨rfl, Or.inl rfl⟩)

/-- C3, counterexample: the stream `{fail p/T}`, `{run p/T}` ends while `T`
is in flight (its `run` has no subsequent terminal event), yet the final
result carries two finalized records named `T` for package `p` — the one
from the earlier result-without-run event and the one from the end-of-stream
sweep — refuting "exactly one finalized record for that test". -/
theorem claim_C3_counterexample :
    ∃ q ∈ Parse [Line.event ⟨"fail", "p", "T", 0, ""⟩,
                 Line.event ⟨"run", "p", "T", 0, ""⟩],
      q.packageName = "p" ∧
        q.tests.countP (fun t => t.name = "T") = 2 := by
  decide

/-- C3 (amended): if the stream ends while test `T` of package `P` is in
flight and no already-finalized record named `T` exists in `P` at that
point, then `Parse` yields exactly one finalized record named `T` in `P`,
with status `fail` and the synthetic end-of-stream diagnostic line, and
`P`'s final status is `fail`. -/
theorem claim_C3_amended (ls : List Line) (P T : String)
    (h1 : ∃ e ∈ (runLines ls).currentTestResults,
        e.2.packageName = P ∧ e.2.name = T)
    (h2 : ((lookupA (runLines ls).packageResults P).map
        (fun p0 => p0.tests.countP (fun t => t.name = T))).getD 0 = 0) :
    ∃ q ∈ Parse ls, q.packageName = P ∧ q.status = TestStatus.fail ∧
      q.tests.countP (fun t => t.name = T) = 1 ∧
      ∀ t ∈ q.tests, t.name = T →
        t.status = TestStatus.fail ∧ eofSweepDiag ∈ t.output := by
  obtain ⟨e, he, hP, hT⟩ := h1
  have hin := inv_runLines ls
  have hkey : P ∈ (runLines ls).packageResults.map Prod.fst :=
    hP ▸ hin.cur_pkg e he
  have hord : P ∈ (runLines ls).orderedPackageNames := hin.keys_sub _ hkey
  obtain ⟨p0, hp0⟩ :=
    Option.isSome_iff_exists.mp ((lookupA_isSome_iff _ _).mpr hkey)
  have hname : p0.packageName = P := hin.pkg_name _ (lookupA_mem hp0)
  rw [hp0] at h2
  simp only [Option.map_some', Option.getD_some] at h2
  have hany :
      ((runLines ls).currentTestResults.any
        fun x => decide (x.2.packageName = P)) = true :=
    List.any_eq_true.mpr ⟨e, he, by simp [hP]⟩
  have hfin := lookup_finalizeState hin P
  rw [hp0] at hfin
  simp only [Option.map_some'] at hfin
  have hcount :
      (p0.tests ++
        ((runLines ls).currentTestResults.filter
          (fun x => decide (x.2.packageName = P))).map
            (fun x => markEofSweep x.2)).countP
        (fun t => decide (t.name = T)) = 1 := by
    rw [List.countP_append, h2, Nat.zero_add, List.countP_map,
      List.countP_filter]
    have hpr : ∀ x : String × TestResult,
        (((fun t => decide (t.name = T)) ∘ fun x => markEofSweep x.2) x &&
          decide (x.2.packageName = P)) =
          (decide (x.2.name = T) && decide (x.2.packageName = P)) := by
      intro x
      simp [markEofSweep]
    rw [List.countP_congr (fun x _ => by rw [hpr x])]
    rw [List.countP_eq_length_filter]
    apply Nat.le_antisymm
    · have hnd :
          (((runLines ls).currentTestResults.filter
            (fun x => decide (x.2.name = T) && decide (x.2.packageName = P))).map
              Prod.fst).Nodup :=
        ((List.filter_sublist _).map Prod.fst).nodup hin.cur_nodup
      refine @length_le_one_of_nodup_map (String × TestResult) String _
        Prod.fst (P ++ "/" ++ T) hnd ?_
      intro x hx
      have hx' := List.mem_filter.mp hx
      have hk := hin.cur_key x hx'.1
      have hxx : x.2.name = T ∧ x.2.packageName = P := by
        have := hx'.2
        simp only [Bool.and_eq_true, decide_eq_true_eq] at this
        exact this
      rw [hk, hxx.1, hxx.2]
    · have he' : e ∈ (runLines ls).currentTestResults.filter
          (fun x => decide (x.2.name = T) && decide (x.2.packageName = P)) :=
        List.mem_filter.mpr ⟨he, by simp [hT, hP]⟩
      exact List.length_pos.mpr (List.ne_nil_of_mem he')
  refine ⟨_, parse_mem_of_lookup hord hfin, ?_, ?_, ?_, ?_⟩
  · simpa using hname
  · simp [hany]
  · show (sortTests _).countP _ = 1
    rw [(perm_sortTests _).countP_eq]
    exact hcount
  · intro t ht htn
    have ht' := ((perm_sortTests _).mem_iff).mp ht
    rcases List.mem_append.mp ht' with hta | htb
    · exfalso
      have hz := List.countP_eq_zero.mp h2 t hta
      simp [htn] at hz
    · obtain ⟨x, hx, rfl⟩ := List.mem_map.mp htb
      exact ⟨rfl, by simp [markEofSweep]⟩

/-- C3, witness for the amended theorem: a stream consisting of one `run`
event for `p/T`, ending with `T` in flight. -/
theorem claim_C3_witness :
    ∃ q ∈ Parse [Line.event ⟨"run", "p", "T", 0, ""⟩],
      q.packageName = "p" ∧ q.status = TestStatus.fail ∧
      q.tests.countP (fun t => t.name = "T") = 1 ∧
      ∀ t ∈ q.tests, t.name = "T" →
        t.status = TestStatus.fail ∧ eofSweepDiag ∈ t.output :=
  claim_C3_amended [Line.event ⟨"run", "p", "T", 0, ""⟩] "p" "T"
    (by decide) (by decide)

/-- C4, counterexample: a stream consisting of a single undecodable line.
No package is known yet, so `Parse` drops the line entirely (it is only
logged) and returns an empty list — there is no synthetic "unassociated
output" bucket for decode failures, refuting "never silently discarded". -/
theorem claim_C4_counterexample :
    Parse [Line.malformed "this is not json"] = [] := by
  decide

/-- C4 (amended): an undecodable line is recorded as tagged diagnostic text
attached to the most recently seen package when at least one package is
known; when no package is known yet it is dropped (only logged); in both
cases processing of the remaining lines continues unchanged. -/
theorem claim_C4_amended (pre post : List Line) (text : String) :
    (List.foldl processLine initState
        (pre ++ Line.malformed text :: post) =
      List.foldl processLine
        (processLine (runLines pre) (Line.malformed text)) post)
    ∧ ((runLines pre).orderedPackageNames = [] →
        processLine (runLines pre) (Line.malformed text) =
          { runLines pre with lineNumber := (runLines pre).lineNumber + 1 })
    ∧ ((runLines pre).orderedPackageNames ≠ [] →
        ∃ lastPkg pkg,
          (runLines pre).orderedPackageNames.getLast? = some lastPkg ∧
          lookupA (runLines pre).packageResults lastPkg = some pkg ∧
          processLine (runLines pre) (Line.malformed text) =
            { runLines pre with
                lineNumber := (runLines pre).lineNumber + 1
                packageResults := insertA (runLines pre).packageResults lastPkg
                  { pkg with
                      summaryOutput := pkg.summaryOutput ++
                        [malformedTag ((runLines pre).lineNumber + 1) text] } }) := by
  refine ⟨?_, ?_, ?_⟩
  · rw [List.foldl_append, List.foldl_cons]
    rfl
  · intro h0
    have hlast : (runLines pre).orderedPackageNames.getLast? = none := by
      rw [h0]
      rfl
    unfold processLine
    dsimp only
    rw [hlast]
  · intro hne
    have hin := inv_runLines pre
    have hlast : (runLines pre).orderedPackageNames.getLast? =
        some ((runLines pre).orderedPackageNames.getLast hne) :=
      List.getLast?_eq_getLast _ hne
    have hmem : (runLines pre).orderedPackageNames.getLast hne ∈
        (runLines pre).orderedPackageNames := List.getLast_mem hne
    obtain ⟨pkg, hpkg⟩ := Option.isSome_iff_exists.mp
      ((lookupA_isSome_iff _ _).mpr (hin.ordered_sub _ hmem))
    refine ⟨_, pkg, hlast, hpkg, ?_⟩
    unfold processLine
    dsimp only
    rw [hlast]
    dsimp only
    rw [hpkg]

/-- C4, witness: both live branches of the amended theorem — a malformed
line with no package yet is dropped, and one arriving after a package-level
`run` event is attached to that package's summary. -/
theorem claim_C4_witness :
    (processLine (runLines []) (Line.malformed "oops") =
      { runLines [] with lineNumber := (runLines []).lineNumber + 1 })
    ∧ (∃ lastPkg pkg,
        (runLines [Line.event ⟨"run", "p", "", 0, ""⟩]).orderedPackageNames.getLast?
          = some lastPkg ∧
        lookupA (runLines [Line.event ⟨"run", "p", "", 0, ""⟩]).packageResults
          lastPkg = some pkg ∧
        processLine (runLines [Line.event ⟨"run", "p", "", 0, ""⟩])
            (Line.malformed "oops") =
          { runLines [Line.event ⟨"run", "p", "", 0, ""⟩] with
              lineNumber :=
                (runLines [Line.event ⟨"run", "p", "", 0, ""⟩]).lineNumber + 1
              packageResults :=
                insertA
                  (runLines [Line.event ⟨"run", "p", "", 0, ""⟩]).packageResults
                  lastPkg
                  { pkg with
                      summaryOutput := pkg.summaryOutput ++
                        [malformedTag
                          ((runLines [Line.event ⟨"run", "p", "", 0, ""⟩]).lineNumber + 1)
                          "oops"] } }) :=
  ⟨(claim_C4_amended [] [] "oops").2.1 rfl,
   (claim_C4_amended [Line.event ⟨"run", "p", "", 0, ""⟩] [] "oops").2.2
     (by decide)⟩

/-- C7: in the final list, packages appear in the order their identifiers
were first seen in the stream (`specFirstSeenPackages`, written from the
spec's description), and the tests of every package are sorted by name. -/
theorem claim_C7 (ls : List Line) :
    (Parse ls).map PackageResult.packageName = specFirstSeenPackages ls ∧
      ∀ q ∈ Parse ls, List.Sorted nameLe q.tests := by
  constructor
  · rw [parse_names]
    show (List.foldl processLine initState ls).orderedPackageNames = _
    rw [ordered_foldl inv_initState]
    rfl
  · intro q hq
    obtain ⟨n, p, hn, hp, rfl⟩ := mem_parse hq
    exact sorted_sortTests _

/-- C7, witness: a stream interleaving two packages, with a test finishing
out of name order. -/
theorem claim_C7_witness :
    ((Parse [Line.event ⟨"run", "b", "T2", 0, ""⟩,
             Line.event ⟨"run", "a", "T1", 0, ""⟩,
             Line.event ⟨"pass", "b", "T2", 0, ""⟩,
             Line.event ⟨"pass", "a", "T1", 0, ""⟩,
             Line.event ⟨"fail", "b", "T0", 0, ""⟩,
             Line.event ⟨"pass", "b", "", 0, ""⟩]).map
        PackageResult.packageName =
      specFirstSeenPackages [Line.event ⟨"run", "b", "T2", 0, ""⟩,
             Line.event ⟨"run", "a", "T1", 0, ""⟩,
             Line.event ⟨"pass", "b", "T2", 0, ""⟩,
             Line.event ⟨"pass", "a", "T1", 0, ""⟩,
             Line.event ⟨"fail", "b", "T0", 0, ""⟩,
             Line.event ⟨"pass", "b", "", 0, ""⟩]) ∧
    List.Sorted nameLe
      (⟨"b", TestStatus.pass, [],
        [⟨"b", "T0", TestStatus.fail, [], 0⟩,
         ⟨"b", "T2", TestStatus.pass, [], 0⟩], 0⟩ : PackageResult).tests :=
  ⟨(claim_C7 _).1,
   (claim_C7 [Line.event ⟨"run", "b", "T2", 0, ""⟩,
             Line.event ⟨"run", "a", "T1", 0, ""⟩,
             Line.event ⟨"pass", "b", "T2", 0, ""⟩,
             Line.event ⟨"pass", "a", "T1", 0, ""⟩,
             Line.event ⟨"fail", "b", "T0", 0, ""⟩,
             Line.event ⟨"pass", "b", "", 0, ""⟩]).2
     ⟨"b", TestStatus.pass, [],
        [⟨"b", "T0", TestStatus.fail, [], 0⟩,
         ⟨"b", "T2", TestStatus.pass, [], 0⟩], 0⟩ (by decide)⟩

/-- C10, counterexample: two orphaned top-level output events.  Each event
re-creates the synthetic `_orphaned_output_` bucket (the map is keyed by the
empty package name, which never matches), so the first line "a" is lost from
the final result, refuting "every such event is recorded". -/
theorem claim_C10_counterexample :
    Parse [Line.event ⟨"output", "", "", 0, "a"⟩,
           Line.event ⟨"output", "", "", 0, "b"⟩] =
      [⟨orphanedOutputPackage, TestStatus.unknown, ["b"], [], 0⟩] ∧
    ∀ p ∈ Parse [Line.event ⟨"output", "", "", 0, "a"⟩,
                 Line.event ⟨"output", "", "", 0, "b"⟩],
      "a" ∉ p.summaryOutput := by
  decide

/-- C10 (amended): every orphaned output event (empty package, empty test,
action `output`), processed from any reachable state, first re-creates the
synthetic `_orphaned_output_` bucket and then records exactly its own
newline-trimmed line, so earlier orphaned lines are lost.  In any stream in
which no event before the orphaned event names `_orphaned_output_` and every
line after it decodes, is not itself an orphaned output event, and does not
name `_orphaned_output_`, the final list contains the bucket with status
`UNKNOWN`, no tests and exactly the last orphaned line; and the packages of
the final list (the bucket included) appear in first-seen order. -/
theorem claim_C10_amended (pre post : List Line) (s : String)
    (hpre : ∀ l ∈ pre, notBucketEvent l)
    (hpost : ∀ l ∈ post, cleanAfterOrphan l) :
    (∀ st : ParseState, Inv st →
        processLine st (Line.event ⟨"output", "", "", 0, s⟩) =
          { st with
              packageResults := insertA st.packageResults orphanedOutputPackage
                ⟨orphanedOutputPackage, TestStatus.unknown,
                  [trimNewlines s], [], 0⟩
              orderedPackageNames :=
                addIfAbsent st.orderedPackageNames orphanedOutputPackage
              lineNumber := st.lineNumber + 1 }) ∧
    (∃ q ∈ Parse (pre ++ Line.event ⟨"output", "", "", 0, s⟩ :: post),
        q.packageName = orphanedOutputPackage ∧
        q.status = TestStatus.unknown ∧
        q.tests = [] ∧ q.summaryOutput = [trimNewlines s]) ∧
    (Parse (pre ++ Line.event ⟨"output", "", "", 0, s⟩ :: post)).map
        PackageResult.packageName =
      specFirstSeenPackages (pre ++ Line.event ⟨"output", "", "", 0, s⟩ :: post) := by
  refine ⟨fun st h => orphan_event_step h s, ?_, ?_⟩
  · have hpreInv : Inv (runLines pre) := inv_runLines pre
    have hbi : BucketIntact
        (processLine (runLines pre) (Line.event ⟨"output", "", "", 0, s⟩))
        ⟨orphanedOutputPackage, TestStatus.unknown, [trimNewlines s], [], 0⟩ := by
      rw [orphan_event_step hpreInv s]
      refine ⟨?_, ?_, ?_⟩
      · dsimp only
        rw [lookupA_insertA, if_pos rfl]
      · exact mem_addIfAbsent_self _ _
      · exact curnot_runLines pre hpre
    have hInv1 : Inv
        (processLine (runLines pre) (Line.event ⟨"output", "", "", 0, s⟩)) :=
      inv_processLine hpreInv _
    have hbe := bucketIntact_foldl hbi post hpost
    have hInvE : Inv (List.foldl processLine
        (processLine (runLines pre) (Line.event ⟨"output", "", "", 0, s⟩))
        post) := inv_foldl hInv1 post
    have hrun : runLines (pre ++ Line.event ⟨"output", "", "", 0, s⟩ :: post) =
        List.foldl processLine
          (processLine (runLines pre) (Line.event ⟨"output", "", "", 0, s⟩))
          post := by
      simp only [runLines, List.foldl_append, List.foldl_cons]
    have hlook : lookupA (finalizeState (runLines
          (pre ++ Line.event ⟨"output", "", "", 0, s⟩ :: post))).packageResults
          orphanedOutputPackage =
        some ⟨orphanedOutputPackage, TestStatus.unknown,
          [trimNewlines s], [], 0⟩ := by
      rw [hrun]
      exact lookup_finalize_bucket hInvE hbe
    have hord : orphanedOutputPackage ∈ (runLines
        (pre ++ Line.event ⟨"output", "", "", 0, s⟩ :: post)).orderedPackageNames := by
      rw [hrun]
      exact hbe.2.1
    exact ⟨_, parse_mem_of_lookup hord hlook, rfl, rfl, rfl, rfl⟩
  · rw [parse_names]
    unfold runLines
    rw [ordered_foldl inv_initState]
    rfl

/-- C10, witness for the amended theorem: a `run` event for package `x`, the
orphaned line, then further output for `x`; the bucket survives with exactly
the orphaned line, and the packages come out in first-seen order. -/
theorem claim_C10_witness :
    (processLine initState (Line.event ⟨"output", "", "", 0, "first\n"⟩) =
      { initState with
          packageResults := insertA initState.packageResults
            orphanedOutputPackage
            ⟨orphanedOutputPackage, TestStatus.unknown,
              [trimNewlines "first\n"], [], 0⟩
          orderedPackageNames :=
            addIfAbsent initState.orderedPackageNames orphanedOutputPackage
          lineNumber := initState.lineNumber + 1 }) ∧
    (∃ q ∈ Parse ([Line.event ⟨"run", "x", "", 0, ""⟩] ++
        Line.event ⟨"output", "", "", 0, "first\n"⟩ ::
          [Line.event ⟨"output", "x", "", 0, "later"⟩]),
        q.packageName = orphanedOutputPackage ∧
        q.status = TestStatus.unknown ∧
        q.tests = [] ∧ q.summaryOutput = [trimNewlines "first\n"]) ∧
    (Parse ([Line.event ⟨"run", "x", "", 0, ""⟩] ++
        Line.event ⟨"output", "", "", 0, "first\n"⟩ ::
          [Line.event ⟨"output", "x", "", 0, "later"⟩])).map
        PackageResult.packageName =
      specFirstSeenPackages ([Line.event ⟨"run", "x", "", 0, ""⟩] ++
        Line.event ⟨"output", "", "", 0, "first\n"⟩ ::
          [Line.event ⟨"output", "x", "", 0, "later"⟩]) :=
  ⟨(claim_C10_amended [Line.event ⟨"run", "x", "", 0, ""⟩]
      [Line.event ⟨"output", "x", "", 0, "later"⟩] "first\n"
      (by decide) (by decide)).1 initState inv_initState,
   (claim_C10_amended [Line.event ⟨"run", "x", "", 0, ""⟩]
      [Line.event ⟨"output", "x", "", 0, "later"⟩] "first\n"
      (by decide) (by decide)).2.1,
   (claim_C10_amended [Line.event ⟨"run", "x", "", 0, ""⟩]
      [Line.event ⟨"output", "x", "", 0, "later"⟩] "first\n"
      (by decide) (by decide)).2.2⟩

end Gdd
